import Mathlib

/-!
Verification development for the WatchPupPy folder-watching backup engine.

This file gives a shallow embedding of the core of the repository
(`src/watchpuppy/watcher.py`, `src/watchpuppy/utils.py`,
`src/watchpuppy/pattern_matcher.py`) and proves or refutes the frozen
specification claims about it.

Modelling conventions:
- File contents are `String`s (each `Char` standing for one byte).
- Wall-clock readings (`current_time_str`, directory modification times)
  are supplied as explicit inputs, since they are external to the program.
- Python dictionaries are modelled as insertion-ordered association lists
  (`List (String × β)`) with first-occurrence lookup and in-place update,
  matching CPython dict semantics.
- The 128-bit content digest of `hashlib.md5` is a library primitive that
  lives outside this repository; it is modelled by a fixed executable
  128-bit hash of the byte stream rendered to 32 lowercase hex characters,
  mirroring the fold-over-blocks/`hexdigest` structure of the source.
-/

namespace WatchPupPy

/-- First-occurrence lookup in an insertion-ordered association list
(the model of a CPython `dict` read). -/
def lookupA {β : Type} (k : String) : List (String × β) → Option β
  | [] => none
  | (k2, v) :: rest => if k2 = k then some v else lookupA k rest

/-- In-place update-or-append in an insertion-ordered association list
(the model of a CPython `dict` write: an existing key keeps its position). -/
def insertA {β : Type} (k : String) (v : β) : List (String × β) → List (String × β)
  | [] => [(k, v)]
  | (k2, w) :: rest => if k2 = k then (k2, v) :: rest else (k2, w) :: insertA k v rest

/-- The keys of an association list, in order. -/
def keysA {β : Type} (l : List (String × β)) : List String :=
  l.map Prod.fst

theorem lookupA_insertA_self {β : Type} (k : String) (v : β) (l : List (String × β)) :
    lookupA k (insertA k v l) = some v := by
  induction l with
  | nil => simp [insertA, lookupA]
  | cons p rest ih =>
    obtain ⟨k2, w⟩ := p
    by_cases h : k2 = k
    · simp [insertA, lookupA, h]
    · simp [insertA, lookupA, h, ih]

theorem lookupA_insertA_ne {β : Type} (k k2 : String) (v : β) (l : List (String × β))
    (h : k2 ≠ k) : lookupA k (insertA k2 v l) = lookupA k l := by
  induction l with
  | nil => simp [insertA, lookupA, h]
  | cons p rest ih =>
    obtain ⟨k3, w⟩ := p
    by_cases h3 : k3 = k2
    · subst h3
      simp [insertA, lookupA, h]
    · by_cases h4 : k3 = k
      · simp [insertA, lookupA, h3, h4, Ne.symm h]
      · simp [insertA, lookupA, h3, h4, ih]

theorem insertA_of_lookupA_eq {β : Type} (k : String) (v : β) (l : List (String × β))
    (h : lookupA k l = some v) : insertA k v l = l := by
  induction l with
  | nil => simp [lookupA] at h
  | cons p rest ih =>
    obtain ⟨k2, w⟩ := p
    by_cases h2 : k2 = k
    · subst h2
      simp [lookupA] at h
      simp [insertA, h]
    · simp [lookupA, h2] at h
      simp [insertA, h2, ih h]

theorem lookupA_mem {β : Type} {k : String} {v : β} {l : List (String × β)}
    (h : lookupA k l = some v) : (k, v) ∈ l := by
  induction l with
  | nil => simp [lookupA] at h
  | cons p rest ih =>
    obtain ⟨k2, w⟩ := p
    by_cases h2 : k2 = k
    · subst h2
      simp [lookupA] at h
      simp [h]
    · simp [lookupA, h2] at h
      simp [ih h]

/-! ## Content digest (`utils.md5_for_file`)

`md5_for_file` streams the file in blocks through `hashlib.md5` and returns
`hexdigest()`; any failure to open or read the file is swallowed by its
`try/except` and yields the empty string.  The md5 compression function
itself lives in the Python standard library, outside this repository; it is
modelled by a fixed executable 128-bit fold over the byte stream. -/

/-- Model of the library digest state: a 128-bit accumulator folded over the
bytes of the content, standing in for `hashlib.md5`'s compression. -/
def md5Hash (s : String) : Nat :=
  s.data.foldl (fun h c => (h * 257 + c.toNat + 1) % (2 ^ 128)) 5381

/-- Model of `hexdigest()`: the 128-bit value rendered as exactly 32
lowercase hexadecimal characters, most significant nibble first. -/
def hexDigest32 (n : Nat) : String :=
  String.mk ((List.range 32).map (fun i => Nat.digitChar (n / 16 ^ (31 - i) % 16)))

/-- The content digest used throughout the engine: `hexdigest` of the
streamed hash. -/
def md5Digest (s : String) : String :=
  hexDigest32 (md5Hash s)

/-- Shallow embedding of `utils.md5_for_file`: the input is `some` content
when the file can be opened and fully read, `none` when any step of
opening or reading fails (the `except` path of the source). -/
def md5_for_file (contents : Option String) : String :=
  match contents with
  | none => ""
  | some s => md5Digest s

/-- A lowercase hexadecimal character. -/
def isLowerHex (c : Char) : Bool :=
  (decide ('0' ≤ c) && decide (c ≤ '9')) || (decide ('a' ≤ c) && decide (c ≤ 'f'))

theorem isLowerHex_digitChar (k : Nat) (h : k < 16) : isLowerHex (Nat.digitChar k) = true := by
  interval_cases k <;> decide

/-- C9: `md5_for_file` never raises: every failure to open or read yields
the empty string, and every successful read yields the 32-lowercase-hex
digest of the file's bytes; in particular any two unreadable files compare
as having equal (empty) digests. -/
theorem md5_for_file_total_spec :
    md5_for_file none = "" ∧
    ∀ s : String, md5_for_file (some s) = md5Digest s ∧
      (md5_for_file (some s)).length = 32 ∧
      (md5_for_file (some s)).data.all isLowerHex = true := by
  refine ⟨rfl, fun s => ⟨rfl, ?_, ?_⟩⟩
  · simp [md5_for_file, md5Digest, hexDigest32, String.length]
  · simp only [md5_for_file, md5Digest, hexDigest32, List.all_eq_true]
    intro c hc
    simp only [String.mk, List.mem_map, List.mem_range] at hc
    obtain ⟨i, _, rfl⟩ := hc
    exact isLowerHex_digitChar _ (Nat.mod_lt _ (by omega))

/-! ## Data model of the backup root -/

/-- The observable data of one file on disk: its bytes and its modification
time.  `shutil.copy2` preserves both. -/
structure FileData where
  content : String
  mtime : Nat
  deriving DecidableEq, Repr

/-- A file in the watched tree, as enumerated by `os.walk`: `sub` is the
watch-root-relative directory part (empty for the top level), `name` the
basename (the component matched against the filename patterns). -/
structure SrcFile where
  sub : String
  name : String
  content : String
  mtime : Nat
  deriving DecidableEq, Repr

/-- `os.path.relpath(fpath, watch_folder)` for a watched file. -/
def SrcFile.relPath (f : SrcFile) : String :=
  if f.sub = "" then f.name else f.sub ++ "/" ++ f.name

/-- One timestamped snapshot directory under the backup root: its directory
name, the directory's own modification time (read by
`_get_latest_backup_dir`), and its files keyed by snapshot-relative path.
Snapshots created by `backup_file` are flat (basenames only). -/
structure Snap where
  name : String
  dmtime : Nat
  files : List (String × FileData)
  deriving DecidableEq, Repr

/-- One `final_info.json` record: `{"timestamp": ..., "md5": ...}`. -/
structure LogEntry where
  timestamp : String
  md5 : String
  deriving DecidableEq, Repr

/-- The persistent state owned by a `BackupManager`: the retention limit,
the non-FINAL snapshot directories (in directory-listing order), the FINAL
archive keyed by FINAL-relative path, the JSON log (`none` while
`final_info.json` does not exist on disk), and FINAL's own directory
modification time. -/
structure BMState where
  maxVersions : Option Nat
  snapshots : List Snap
  finalDir : List (String × FileData)
  finalLog : Option (List (String × LogEntry))
  finalMtime : Nat
  deriving DecidableEq, Repr

/-- Model of `datetime.datetime.fromtimestamp(mtime).strftime(...)`: an
injective human-readable rendering of the modification time (the library
formatting itself is external to the repository). -/
def fmtTime (n : Nat) : String :=
  toString n

/-- `_load_final_log`: a missing or unreadable `final_info.json` is an
empty dictionary. -/
def loadFinalLog (st : BMState) : List (String × LogEntry) :=
  st.finalLog.getD []

/-! Python's `sorted` on strings is lexicographic on code points; modelled
by a stable insertion sort over a boolean comparator. -/

/-- Code-point lexicographic order on character lists. -/
def lexLe : List Char → List Char → Bool
  | [], _ => true
  | _ :: _, [] => false
  | a :: as, b :: bs =>
    if a.toNat < b.toNat then true
    else if a.toNat > b.toNat then false
    else lexLe as bs

/-- Python `<=` on strings. -/
def strLe (a b : String) : Bool :=
  lexLe a.data b.data

/-- Stable insertion into a sorted list: the new element (earlier in the
original listing) goes before elements it compares `le` to. -/
def sortedInsert {α : Type} (le : α → α → Bool) (x : α) : List α → List α
  | [] => [x]
  | y :: ys => if le x y then x :: y :: ys else y :: sortedInsert le x ys

/-- Stable sort (model of CPython's stable `sorted`/`list.sort`). -/
def stableSort {α : Type} (le : α → α → Bool) (l : List α) : List α :=
  l.foldr (sortedInsert le) []

/-- Directory listing of the backup root as seen by `_prune_old_backups`:
the snapshot directory names plus, once it exists on disk, the
`final_info.json` file itself (`os.listdir` lists files too); the FINAL
folder is filtered out by name. -/
def pruneListing (st : BMState) : List String :=
  stableSort strLe
    ((st.snapshots.map Snap.name).filter (fun d => d ≠ "FINAL") ++
      (if st.finalLog.isSome then ["final_info.json"] else []))

/-- Remove a snapshot directory (`shutil.rmtree`). -/
def removeSnap (name : String) (st : BMState) : BMState :=
  { st with snapshots := st.snapshots.filter (fun s => s.name ≠ name) }

/-- `_preserve_files_in_final(backup_path)` where `backup_path` is the
snapshot named `name` and `now` is the wall clock (FINAL's directory mtime
is refreshed by creating the sub-folder): copy each file of the snapshot
into `FINAL/<name>/` unless already present there, recording a log entry
keyed by the FINAL-relative path with the source mtime and digest; the log
is loaded once and saved once. -/
def preserveFilesInFinal (name : String) (now : Nat) (st : BMState) : BMState :=
  match st.snapshots.find? (fun s => s.name = name) with
  | none => st
  | some snap =>
    let step := fun (acc : List (String × FileData) × List (String × LogEntry))
        (e : String × FileData) =>
      let rel := name ++ "/" ++ e.1
      if (lookupA rel acc.1).isSome then acc
      else (insertA rel e.2 acc.1,
            insertA rel ⟨fmtTime e.2.mtime, md5Digest e.2.content⟩ acc.2)
    let res := snap.files.foldl step (st.finalDir, loadFinalLog st)
    { st with finalDir := res.1, finalLog := some res.2, finalMtime := now }

/-- The body of `_prune_old_backups`'s `while` loop: the listing was taken
once up front and is popped in memory; each popped name is preserved into
FINAL and its directory removed.  Popping a name that is not a snapshot
directory (the `final_info.json` entry) makes `shutil.rmtree` raise, and
the surrounding `except` abandons the whole prune. -/
def pruneLoop (maxV : Nat) (now : Nat) : List String → BMState → BMState
  | [], st => st
  | oldest :: rest, st =>
    if (oldest :: rest).length > maxV then
      if (st.snapshots.find? (fun s => s.name = oldest)).isSome then
        pruneLoop maxV now rest (removeSnap oldest (preserveFilesInFinal oldest now st))
      else st
    else st

/-- `_prune_old_backups`: no-op without a retention limit; otherwise pop
the lexicographically oldest entries of the listing while the count
exceeds the limit, preserving each popped snapshot into FINAL first. -/
def pruneOldBackups (now : Nat) (st : BMState) : BMState :=
  match st.maxVersions with
  | none => st
  | some n => pruneLoop n now (pruneListing st) st

/-- Create-or-reuse of the timestamped destination directory plus
`shutil.copy2` of the file under its basename (a same-second collision
reuses the directory and overwrites the entry). -/
def copyIntoSnap (ts : String) (now : Nat) (f : SrcFile) (snaps : List Snap) : List Snap :=
  match snaps with
  | [] => [⟨ts, now, [(f.name, ⟨f.content, f.mtime⟩)]⟩]
  | s :: rest =>
    if s.name = ts then
      { s with dmtime := now, files := insertA f.name ⟨f.content, f.mtime⟩ s.files } :: rest
    else s :: copyIntoSnap ts now f rest

/-- `backup_file(filepath)`: under the lock, create a snapshot directory
named by the current timestamp `ts`, copy the file into it, then prune.
`ts` and `now` are the wall clock's string and numeric readings. -/
def backup_file (ts : String) (now : Nat) (f : SrcFile) (st : BMState) : BMState :=
  pruneOldBackups now { st with snapshots := copyIntoSnap ts now f st.snapshots }

/-- `backup_file_to_final(filepath)`: copy the file flat into FINAL's root
under its basename and update that key's log entry with the file's mtime
and digest. -/
def backup_file_to_final (now : Nat) (f : SrcFile) (st : BMState) : BMState :=
  { st with
    finalDir := insertA f.name ⟨f.content, f.mtime⟩ st.finalDir,
    finalLog := some (insertA f.name ⟨fmtTime f.mtime, md5Digest f.content⟩ (loadFinalLog st)),
    finalMtime := now }

/-- The winner map of `merge_final_on_demand`: walking every non-FINAL
snapshot in listing order and every file within, keep for each
snapshot-relative path the entry with the strictly greatest modification
time (the first seen wins ties). -/
def updateLatest (acc : List (String × FileData)) (e : String × FileData) :
    List (String × FileData) :=
  match lookupA e.1 acc with
  | none => acc ++ [e]
  | some old => if e.2.mtime > old.mtime then insertA e.1 e.2 acc else acc

/-- All (relative path, data) entries across the non-FINAL snapshots, in
walk order. -/
def allEntries (snaps : List Snap) : List (String × FileData) :=
  snaps.foldl (fun acc s => acc ++ s.files) []

/-- The per-path latest-version map collected by `merge_final_on_demand`. -/
def computeLatest (snaps : List Snap) : List (String × FileData) :=
  (allEntries snaps).foldl updateLatest []

/-- A sequence of `shutil.copy2` calls into an existing tree: fold the
association-list updates of `pairs` over the tree `m`. -/
def foldIns {β : Type} (m : List (String × β)) (pairs : List (String × β)) :
    List (String × β) :=
  pairs.foldl (fun fd e => insertA e.1 e.2 fd) m

/-- `merge_final_on_demand()`: copy every winner into FINAL at its own
relative path (overwriting, leaving non-winning files already in FINAL on
disk) and rebuild the log from scratch to exactly the winning set. -/
def merge_final_on_demand (now : Nat) (st : BMState) : BMState :=
  let latest := computeLatest st.snapshots
  { st with
    finalDir := foldIns st.finalDir latest,
    finalLog := some (latest.map (fun e => (e.1, ⟨fmtTime e.2.mtime, md5Digest e.2.content⟩))),
    finalMtime := now }

/-! ## The FolderWatcher -/

/-- Watcher configuration, fixed at construction.  A compiled regex is a
library object external to the repository; each pattern is modelled by its
`search` behaviour, a boolean predicate on the filename. -/
structure WCfg where
  useFinalAsInitial : Bool
  watchNewFiles : Bool
  patterns : List (String → Bool)

/-- `PatternMatcher.matches`: true unconditionally on an empty pattern
list, otherwise true when any pattern finds a match in the filename. -/
def pmatches (cfg : WCfg) (fname : String) : Bool :=
  cfg.patterns.isEmpty || cfg.patterns.any (fun p => p fname)

/-- The watcher state mutated by scans: the shared `BackupManager` state
and the `_last_mtimes` map keyed by watched-file path. -/
structure WCore where
  bm : BMState
  lastM : List (String × Nat)
  deriving DecidableEq, Repr

/-- The full watcher state: scan state plus the `_running` flag. -/
structure WState where
  core : WCore
  running : Bool
  deriving DecidableEq, Repr

/-- A backup action performed by the watcher, for the event trace:
`snap p` is a `backup_file` call for watched path `p`, `toFinal r` a
`backup_file_to_final` call producing FINAL-relative path `r`. -/
inductive Ev where
  | snap (p : String)
  | toFinal (r : String)
  deriving DecidableEq, Repr

/-- `_get_latest_backup_dir`: list the snapshot directories with their
modification times, excluding FINAL; append FINAL (which always exists,
created at construction) as a candidate only when `use_final_as_initial`;
stable-sort ascending by modification time and return the last, `none`
when there is no candidate.  The returned name `"FINAL"` denotes the FINAL
folder. -/
def getLatestBackupDir (cfg : WCfg) (bm : BMState) : Option String :=
  let cands := (bm.snapshots.filter (fun s => s.name ≠ "FINAL")).map
      (fun s => (s.name, s.dmtime)) ++
    (if cfg.useFinalAsInitial then [("FINAL", bm.finalMtime)] else [])
  ((stableSort (fun a b => a.2 ≤ b.2) cands).getLast?).map Prod.fst

/-- Lookup of `os.path.join(latest_backup_dir, basename)` in the model:
in FINAL only a flat entry matches the joined basename; in a snapshot the
entry under that name. -/
def fileInDir (d : String) (bname : String) (bm : BMState) : Option FileData :=
  if d = "FINAL" then lookupA bname bm.finalDir
  else
    match bm.snapshots.find? (fun s => s.name = d) with
    | none => none
    | some s => lookupA bname s.files

/-- Modelled from the spec: `BackupManager.get_final_snapshot` is invoked
by `_initialize_backup_state` but is missing from the sources; per the
spec, the FINAL baseline is "FINAL's current per-path digest map". -/
def get_final_snapshot (bm : BMState) : List (String × String) :=
  bm.finalDir.map (fun e => (e.1, md5Digest e.2.content))

/-- Modelled from the spec: `BackupManager.get_backup_snapshot(dir)` is
invoked by `_initialize_backup_state` but is missing from the sources; per
the spec, the baseline is "the latest non-FINAL snapshot's digest map",
keyed by path relative to that snapshot. -/
def get_backup_snapshot (bm : BMState) (d : String) : List (String × String) :=
  match bm.snapshots.find? (fun s => s.name = d) with
  | none => []
  | some s => s.files.map (fun e => (e.1, md5Digest e.2.content))

/-- `_check_and_backup_file(fpath)` on the happy path (`os.path.getmtime`
succeeds; its `OSError` early return is covered by the fault-injection
embedding below).  `ts`/`now` are the wall clock readings a `backup_file`
call would observe.  Returns the new state and the backup events
performed. -/
def checkAndBackupFile (cfg : WCfg) (ts : String) (now : Nat) (f : SrcFile)
    (c : WCore) : WCore × List Ev :=
  match lookupA f.relPath c.lastM with
  | none =>
    if cfg.watchNewFiles then
      ({ bm := backup_file ts now f c.bm,
         lastM := insertA f.relPath f.mtime c.lastM }, [Ev.snap f.relPath])
    else (c, [])
  | some lastMtime =>
    if f.mtime > lastMtime then
      let md5Current := md5Digest f.content
      let md5Backup : Option String :=
        match getLatestBackupDir cfg c.bm with
        | none => none
        | some d => (fileInDir d f.name c.bm).map (fun g => md5Digest g.content)
      let doBackup := match md5Backup with
        | none => true
        | some h => h ≠ md5Current
      if doBackup then
        ({ bm := backup_file ts now f c.bm,
           lastM := insertA f.relPath f.mtime c.lastM }, [Ev.snap f.relPath])
      else
        ({ c with lastM := insertA f.relPath f.mtime c.lastM }, [])
    else (c, [])

/-- The walk of `_perform_periodic_scan` from an intermediate state:
filter each file by the pattern matcher and check it in turn, threading
the watcher state, the accumulated events, and the clock index. -/
def scanFold (cfg : WCfg) (tsOf : Nat → String) (nowOf : Nat → Nat)
    (files : List SrcFile) (acc : WCore × List Ev × Nat) : WCore × List Ev × Nat :=
  files.foldl
    (fun acc f =>
      if pmatches cfg f.name then
        let r := checkAndBackupFile cfg (tsOf acc.2.2) (nowOf acc.2.2) f acc.1
        (r.1, acc.2.1 ++ r.2, acc.2.2 + 1)
      else acc)
    acc

/-- `_perform_periodic_scan()`: walk the watch folder (given as the file
list), filter by the pattern matcher, and check each file in turn.  The
wall clock is supplied as indexed readings `tsOf`/`nowOf` starting at
index `k`. -/
def performPeriodicScan (cfg : WCfg) (tsOf : Nat → String) (nowOf : Nat → Nat)
    (files : List SrcFile) (c : WCore) (k : Nat) : WCore × List Ev × Nat :=
  scanFold cfg tsOf nowOf files (c, [], k)

/-- `_initialize_backup_state()`: build the baseline digest map (FINAL's
map when `use_final_as_initial`, else the latest snapshot's, else empty);
hash every matched file under the watch root; with an empty baseline back
up every matched file (directly to FINAL when `use_final_as_initial`,
else as a normal snapshot), otherwise back up exactly the files whose
digest is missing from or differs from the baseline; record every matched
file's modification time. -/
def initBackupState (cfg : WCfg) (tsOf : Nat → String) (nowOf : Nat → Nat)
    (files : List SrcFile) (c : WCore) (k : Nat) : WCore × List Ev × Nat :=
  let base : List (String × String) :=
    if cfg.useFinalAsInitial then get_final_snapshot c.bm
    else
      match getLatestBackupDir cfg c.bm with
      | none => []
      | some d => get_backup_snapshot c.bm d
  let current := files.filter (fun f => pmatches cfg f.name)
  if base.isEmpty then
    current.foldl
      (fun acc f =>
        if cfg.useFinalAsInitial then
          (⟨backup_file_to_final (nowOf acc.2.2) f acc.1.bm,
            insertA f.relPath f.mtime acc.1.lastM⟩,
           acc.2.1 ++ [Ev.toFinal f.name], acc.2.2 + 1)
        else
          (⟨backup_file (tsOf acc.2.2) (nowOf acc.2.2) f acc.1.bm,
            insertA f.relPath f.mtime acc.1.lastM⟩,
           acc.2.1 ++ [Ev.snap f.relPath], acc.2.2 + 1))
      (c, [], k)
  else
    current.foldl
      (fun acc f =>
        match lookupA f.relPath base with
        | none =>
          (⟨backup_file (tsOf acc.2.2) (nowOf acc.2.2) f acc.1.bm,
            insertA f.relPath f.mtime acc.1.lastM⟩,
           acc.2.1 ++ [Ev.snap f.relPath], acc.2.2 + 1)
        | some baseMd5 =>
          if baseMd5 ≠ md5Digest f.content then
            (⟨backup_file (tsOf acc.2.2) (nowOf acc.2.2) f acc.1.bm,
              insertA f.relPath f.mtime acc.1.lastM⟩,
             acc.2.1 ++ [Ev.snap f.relPath], acc.2.2 + 1)
          else
            (⟨acc.1.bm, insertA f.relPath f.mtime acc.1.lastM⟩, acc.2.1, acc.2.2 + 1))
      (c, [], k)

/-- The entry of `start()` up to the top of the poll loop: run the full
initialization pass, then set `_running` to true unconditionally.  The
poll loop then iterates while the flag holds. -/
def startW (cfg : WCfg) (tsOf : Nat → String) (nowOf : Nat → Nat)
    (files : List SrcFile) (w : WState) (k : Nat) : WState × List Ev :=
  let r := initBackupState cfg tsOf nowOf files w.core k
  (⟨r.1, true⟩, r.2.1)

/-- `stop()`: clear the `_running` flag, nothing else. -/
def stopW (w : WState) : WState :=
  { w with running := false }

/-! ## Association-list fold lemmas shared by the claims -/

theorem lookupA_eq_none {β : Type} {k : String} {l : List (String × β)} :
    lookupA k l = none ↔ k ∉ keysA l := by
  induction l with
  | nil => simp [lookupA, keysA]
  | cons p rest ih =>
    obtain ⟨k2, w⟩ := p
    by_cases h : k2 = k
    · subst h
      simp [lookupA, keysA]
    · simp [lookupA, keysA, h, Ne.symm h] at ih ⊢
      exact ih

theorem keysA_insertA_some {β : Type} {k : String} {w : β} (v : β) {l : List (String × β)}
    (h : lookupA k l = some w) : keysA (insertA k v l) = keysA l := by
  induction l with
  | nil => simp [lookupA] at h
  | cons p rest ih =>
    obtain ⟨k2, u⟩ := p
    by_cases h2 : k2 = k
    · subst h2
      simp [insertA, keysA]
    · simp [lookupA, h2] at h
      simp [insertA, keysA, h2] at ih ⊢
      exact ih h

theorem keysA_insertA_none {β : Type} {k : String} (v : β) {l : List (String × β)}
    (h : lookupA k l = none) : keysA (insertA k v l) = keysA l ++ [k] := by
  induction l with
  | nil => simp [insertA, keysA]
  | cons p rest ih =>
    obtain ⟨k2, u⟩ := p
    by_cases h2 : k2 = k
    · subst h2
      simp [lookupA] at h
    · simp [lookupA, h2] at h
      simp [insertA, keysA, h2] at ih ⊢
      exact ih h

theorem lookupA_foldIns_not_mem {β : Type} {k : String} :
    ∀ (pairs : List (String × β)) (m : List (String × β)), k ∉ keysA pairs →
      lookupA k (foldIns m pairs) = lookupA k m
  | [], _, _ => rfl
  | e :: rest, m, h => by
    simp only [keysA, List.map_cons, List.mem_cons, not_or] at h
    have ht := lookupA_foldIns_not_mem rest (insertA e.1 e.2 m) (by simpa [keysA] using h.2)
    simp only [foldIns, List.foldl_cons] at ht ⊢
    rw [ht, lookupA_insertA_ne _ _ _ _ (fun hh => h.1 hh.symm)]

theorem lookupA_foldIns_mem {β : Type} {k : String} {v : β} :
    ∀ (pairs : List (String × β)) (m : List (String × β)), (keysA pairs).Nodup →
      (k, v) ∈ pairs → lookupA k (foldIns m pairs) = some v
  | [], _, _, hm => by simp at hm
  | e :: rest, m, hnd, hm => by
    simp only [keysA, List.map_cons, List.nodup_cons] at hnd
    rcases List.mem_cons.mp hm with he | hr
    · have hk : k = e.1 := by rw [← he]
      have hnot : k ∉ keysA rest := by rw [hk]; exact hnd.1
      have ht := lookupA_foldIns_not_mem rest (insertA e.1 e.2 m) hnot
      simp only [foldIns, List.foldl_cons] at ht ⊢
      rw [ht, ← he, lookupA_insertA_self]
    · have ht := lookupA_foldIns_mem rest (insertA e.1 e.2 m) hnd.2 hr
      simpa only [foldIns, List.foldl_cons] using ht

theorem foldIns_id {β : Type} :
    ∀ (pairs : List (String × β)) (m : List (String × β)),
      (∀ e ∈ pairs, lookupA e.1 m = some e.2) → foldIns m pairs = m
  | [], _, _ => rfl
  | e :: rest, m, h => by
    have h1 : insertA e.1 e.2 m = m := insertA_of_lookupA_eq _ _ _ (h e (by simp))
    have ht := foldIns_id rest m (fun x hx => h x (by simp [hx]))
    simp only [foldIns, List.foldl_cons, h1] at ht ⊢
    exact ht

/-- Every state reached by `updateLatest` folding keeps its keys distinct
(`latest_files` is a Python dict). -/
theorem nodup_keysA_foldl_updateLatest :
    ∀ (es : List (String × FileData)) (acc : List (String × FileData)),
      (keysA acc).Nodup → (keysA (es.foldl updateLatest acc)).Nodup
  | [], _, h => h
  | e :: rest, acc, h => by
    have hstep : (keysA (updateLatest acc e)).Nodup := by
      unfold updateLatest
      cases hl : lookupA e.1 acc with
      | none =>
        have hnm : e.1 ∉ keysA acc := lookupA_eq_none.mp hl
        simp only [keysA] at h hnm ⊢
        simp [List.nodup_append, h]
        exact fun x hx => hnm (List.mem_map.mpr ⟨(e.1, x), hx, rfl⟩)
      | some old =>
        by_cases hgt : e.2.mtime > old.mtime
        · simpa [hgt, keysA_insertA_some e.2 hl] using h
        · simpa [hgt] using h
    simpa only [List.foldl_cons] using nodup_keysA_foldl_updateLatest rest (updateLatest acc e) hstep

theorem nodup_keysA_computeLatest (snaps : List Snap) :
    (keysA (computeLatest snaps)).Nodup :=
  nodup_keysA_foldl_updateLatest _ _ (by simp [keysA])

/-- C5: `mergeFinalOnDemand` is idempotent: a second merge with no
intervening backup operations leaves both the FinalLog and the set of
files (paths and bytes) under FINAL exactly as after the first merge. -/
theorem merge_final_on_demand_idem (st : BMState) (n1 n2 : Nat) :
    (merge_final_on_demand n2 (merge_final_on_demand n1 st)).finalDir
      = (merge_final_on_demand n1 st).finalDir ∧
    (merge_final_on_demand n2 (merge_final_on_demand n1 st)).finalLog
      = (merge_final_on_demand n1 st).finalLog := by
  have hsnap : (merge_final_on_demand n1 st).snapshots = st.snapshots := rfl
  constructor
  · show foldIns (foldIns st.finalDir (computeLatest st.snapshots)) (computeLatest st.snapshots)
      = foldIns st.finalDir (computeLatest st.snapshots)
    exact foldIns_id _ _ (fun e he =>
      lookupA_foldIns_mem _ _ (nodup_keysA_computeLatest st.snapshots) he)
  · rfl

/-! ## C6: merge conflict resolution -/

theorem lookupA_append {β : Type} (k : String) (l1 l2 : List (String × β)) :
    lookupA k (l1 ++ l2) =
      match lookupA k l1 with
      | some v => some v
      | none => lookupA k l2 := by
  induction l1 with
  | nil => simp [lookupA]
  | cons p rest ih =>
    obtain ⟨k2, w⟩ := p
    by_cases h : k2 = k
    · simp [lookupA, h]
    · simp [lookupA, h, ih]

theorem lookupA_updateLatest_ne {rel : String} {e : String × FileData}
    (acc : List (String × FileData)) (h : e.1 ≠ rel) :
    lookupA rel (updateLatest acc e) = lookupA rel acc := by
  unfold updateLatest
  cases hl : lookupA e.1 acc with
  | none =>
    rw [lookupA_append]
    cases h2 : lookupA rel acc with
    | some v => rfl
    | none => simp [lookupA, h]
  | some old =>
    by_cases hgt : e.2.mtime > old.mtime
    · simp [hgt, lookupA_insertA_ne _ _ _ _ h]
    · simp [hgt]

theorem lookupA_map_snd {β γ : Type} (k : String) (f : β → γ) (l : List (String × β)) :
    lookupA k (l.map (fun e => (e.1, f e.2))) = (lookupA k l).map f := by
  induction l with
  | nil => simp [lookupA]
  | cons p rest ih =>
    obtain ⟨k2, w⟩ := p
    by_cases h : k2 = k
    · simp [lookupA, h]
    · simp [lookupA, h, ih]

/-- The versions of relative path `rel` occurring in an entry walk, in
walk order. -/
def versionsIn (rel : String) (es : List (String × FileData)) : List FileData :=
  es.filterMap (fun e => if e.1 = rel then some e.2 else none)

/-- All versions of relative path `rel` across the non-FINAL snapshots,
as walked by `merge_final_on_demand`. -/
def versionsOf (rel : String) (snaps : List Snap) : List FileData :=
  versionsIn rel (allEntries snaps)

/-- Invariant of the `latest_files` fold: once every remaining version of
`rel` is dominated by `fd` and either the accumulator already holds `fd`
or `fd` is still to come past only dominated holders, the fold ends with
`fd` at `rel`. -/
theorem lookupA_foldl_updateLatest_max {rel : String} {fd : FileData} :
    ∀ (es : List (String × FileData)) (acc : List (String × FileData)),
      (∀ g ∈ versionsIn rel es, g = fd ∨ g.mtime < fd.mtime) →
      (lookupA rel acc = some fd ∨
        (fd ∈ versionsIn rel es ∧ ∀ w, lookupA rel acc = some w → w.mtime < fd.mtime)) →
      lookupA rel (es.foldl updateLatest acc) = some fd
  | [], acc, _, hst => by
    rcases hst with h | ⟨hmem, _⟩
    · exact h
    · simp [versionsIn] at hmem
  | e :: rest, acc, hall, hst => by
    rw [List.foldl_cons]
    by_cases hrel : e.1 = rel
    · have hv : versionsIn rel (e :: rest) = e.2 :: versionsIn rel rest := by
        simp [versionsIn, hrel]
      have hallrest : ∀ g ∈ versionsIn rel rest, g = fd ∨ g.mtime < fd.mtime := by
        intro g hg
        exact hall g (by rw [hv]; exact List.mem_cons_of_mem _ hg)
      have hecase : e.2 = fd ∨ e.2.mtime < fd.mtime :=
        hall e.2 (by rw [hv]; exact List.mem_cons_self _ _)
      -- the value at `rel` after this step
      rcases hst with hacc | ⟨hmem, hdom⟩
      · -- accumulator already holds fd
        have hacc2 : lookupA e.1 acc = some fd := by rw [hrel]; exact hacc
        unfold updateLatest
        rw [hacc2]
        rcases hecase with hefd | helt
        · subst hefd
          simp only [lt_irrefl, gt_iff_lt, if_neg (lt_irrefl _)]
          exact lookupA_foldl_updateLatest_max rest acc hallrest (Or.inl hacc)
        · have : ¬ e.2.mtime > fd.mtime := by omega
          simp only [gt_iff_lt, if_neg this]
          exact lookupA_foldl_updateLatest_max rest acc hallrest (Or.inl hacc)
      · -- fd still to come (or is e.2), holder dominated
        rcases hecase with hefd | helt
        · -- this entry is fd itself: it wins now
          unfold updateLatest
          cases hl : lookupA e.1 acc with
          | none =>
            have hnew : lookupA rel (acc ++ [e]) = some fd := by
              rw [lookupA_append]
              have : lookupA rel acc = none := by rw [← hrel]; exact hl
              rw [this]
              simp [lookupA, hrel, hefd]
            exact lookupA_foldl_updateLatest_max rest _ hallrest (Or.inl hnew)
          | some w =>
            have hw : w.mtime < fd.mtime := hdom w (by rw [← hrel]; exact hl)
            have hgt : e.2.mtime > w.mtime := by rw [hefd]; omega
            simp only [gt_iff_lt, if_pos hgt]
            have hnew : lookupA rel (insertA e.1 e.2 acc) = some fd := by
              rw [hrel, hefd] at *
              exact lookupA_insertA_self _ _ _
            exact lookupA_foldl_updateLatest_max rest _ hallrest (Or.inl hnew)
        · -- this entry is strictly older than fd
          have hmemrest : fd ∈ versionsIn rel rest := by
            rw [hv] at hmem
            rcases List.mem_cons.mp hmem with hh | hh
            · exfalso; rw [← hh] at helt; omega
            · exact hh
          unfold updateLatest
          cases hl : lookupA e.1 acc with
          | none =>
            have hnew : ∀ w, lookupA rel (acc ++ [e]) = some w → w.mtime < fd.mtime := by
              intro w hw
              rw [lookupA_append] at hw
              have : lookupA rel acc = none := by rw [← hrel]; exact hl
              rw [this] at hw
              simp [lookupA, hrel] at hw
              rw [← hw]; exact helt
            exact lookupA_foldl_updateLatest_max rest _ hallrest (Or.inr ⟨hmemrest, hnew⟩)
          | some w =>
            have hwlt : w.mtime < fd.mtime := hdom w (by rw [← hrel]; exact hl)
            by_cases hgt : e.2.mtime > w.mtime
            · simp only [gt_iff_lt, if_pos hgt]
              have hnew : ∀ u, lookupA rel (insertA e.1 e.2 acc) = some u → u.mtime < fd.mtime := by
                intro u hu
                rw [hrel] at hu
                rw [lookupA_insertA_self] at hu
                cases hu
                exact helt
              exact lookupA_foldl_updateLatest_max rest _ hallrest (Or.inr ⟨hmemrest, hnew⟩)
            · simp only [gt_iff_lt, if_neg hgt]
              exact lookupA_foldl_updateLatest_max rest _ hallrest
                (Or.inr ⟨hmemrest, fun u hu => by
                  have : u = w := by
                    have h2 : lookupA rel acc = some w := by rw [← hrel]; exact hl
                    rw [h2] at hu; cases hu; rfl
                  rw [this]; exact hwlt⟩)
    · -- entry for a different path: invisible at rel
      have hv : versionsIn rel (e :: rest) = versionsIn rel rest := by
        simp [versionsIn, hrel]
      have hallrest : ∀ g ∈ versionsIn rel rest, g = fd ∨ g.mtime < fd.mtime := by
        intro g hg; exact hall g (by rw [hv]; exact hg)
      have hpres := lookupA_updateLatest_ne acc hrel
      rcases hst with hacc | ⟨hmem, hdom⟩
      · exact lookupA_foldl_updateLatest_max rest _ hallrest (Or.inl (hpres.trans hacc))
      · rw [hv] at hmem
        exact lookupA_foldl_updateLatest_max rest _ hallrest
          (Or.inr ⟨hmem, fun w hw => hdom w (hpres ▸ hw)⟩)

/-- C6: `mergeFinalOnDemand` resolves conflicts by latest modification
time: when `fd` is the version of relative path `rel` with the strictly
greatest modification time across the non-FINAL snapshots, the merged
FINAL holds exactly `fd`'s bytes (and mtime) at `rel`, and the rebuilt
log entry at `rel` carries `fd`'s digest. -/
theorem merge_resolves_by_latest_mtime (st : BMState) (now : Nat) (rel : String)
    (fd : FileData) (hv : fd ∈ versionsOf rel st.snapshots)
    (hmax : ∀ g ∈ versionsOf rel st.snapshots, g = fd ∨ g.mtime < fd.mtime) :
    lookupA rel (merge_final_on_demand now st).finalDir = some fd ∧
    lookupA rel (loadFinalLog (merge_final_on_demand now st))
      = some ⟨fmtTime fd.mtime, md5Digest fd.content⟩ := by
  have hlat : lookupA rel (computeLatest st.snapshots) = some fd := by
    apply lookupA_foldl_updateLatest_max (allEntries st.snapshots) []
    · exact hmax
    · exact Or.inr ⟨hv, by intro w hw; simp [lookupA] at hw⟩
  constructor
  · show lookupA rel (foldIns st.finalDir (computeLatest st.snapshots)) = some fd
    exact lookupA_foldIns_mem _ _ (nodup_keysA_computeLatest st.snapshots) (lookupA_mem hlat)
  · show lookupA rel ((computeLatest st.snapshots).map
      (fun e => (e.1, (⟨fmtTime e.2.mtime, md5Digest e.2.content⟩ : LogEntry)))) = _
    rw [lookupA_map_snd rel (fun (d : FileData) => (⟨fmtTime d.mtime, md5Digest d.content⟩ : LogEntry)),
      hlat]
    rfl

/-- Concrete instantiation of C6: two snapshots hold `a` with mtimes 5
and 15; after the merge FINAL's `a` is the 15-version and the log digest
is the 15-version's. -/
theorem merge_resolves_by_latest_mtime_witness :
    lookupA "a"
      (merge_final_on_demand 100
        ⟨some 5, [⟨"T1", 10, [("a", ⟨"x", 5⟩)]⟩,
                  ⟨"T2", 20, [("a", ⟨"y", 15⟩), ("b", ⟨"z", 7⟩)]⟩],
         [("old", ⟨"o", 1⟩)], none, 0⟩).finalDir = some ⟨"y", 15⟩ ∧
    lookupA "a"
      (loadFinalLog (merge_final_on_demand 100
        ⟨some 5, [⟨"T1", 10, [("a", ⟨"x", 5⟩)]⟩,
                  ⟨"T2", 20, [("a", ⟨"y", 15⟩), ("b", ⟨"z", 7⟩)]⟩],
         [("old", ⟨"o", 1⟩)], none, 0⟩))
      = some ⟨fmtTime 15, md5Digest "y"⟩ :=
  merge_resolves_by_latest_mtime _ 100 "a" ⟨"y", 15⟩ (by decide) (by decide)

/-! ## C1: initialization with `use_final_as_initial` and an empty FINAL -/

/-- The empty-baseline loop of `_initialize_backup_state` in
`use_final_as_initial` mode: back up every matched file directly to FINAL
and record its modification time. -/
def initToFinalFold (nowOf : Nat → Nat) (files : List SrcFile) (c : WCore)
    (evs : List Ev) (k : Nat) : WCore × List Ev × Nat :=
  files.foldl
    (fun acc f =>
      (⟨backup_file_to_final (nowOf acc.2.2) f acc.1.bm,
        insertA f.relPath f.mtime acc.1.lastM⟩,
       acc.2.1 ++ [Ev.toFinal f.name], acc.2.2 + 1))
    (c, evs, k)

theorem initBackupState_finalBranch (cfg : WCfg) (tsOf : Nat → String) (nowOf : Nat → Nat)
    (files : List SrcFile) (c : WCore) (k : Nat)
    (hcfg : cfg.useFinalAsInitial = true) (hempty : c.bm.finalDir = []) :
    initBackupState cfg tsOf nowOf files c k
      = initToFinalFold nowOf (files.filter (fun f => pmatches cfg f.name)) c [] k := by
  unfold initBackupState initToFinalFold
  simp only [hcfg, if_true, get_final_snapshot, hempty, List.map_nil, List.isEmpty_nil]

theorem initToFinalFold_snapshots (nowOf : Nat → Nat) :
    ∀ (files : List SrcFile) (c : WCore) (evs : List Ev) (k : Nat),
      (initToFinalFold nowOf files c evs k).1.bm.snapshots = c.bm.snapshots
  | [], _, _, _ => rfl
  | f :: rest, c, evs, k => by
    simpa only [initToFinalFold, List.foldl_cons] using
      initToFinalFold_snapshots nowOf rest _ _ _

theorem initToFinalFold_finalDir (nowOf : Nat → Nat) :
    ∀ (files : List SrcFile) (c : WCore) (evs : List Ev) (k : Nat),
      (initToFinalFold nowOf files c evs k).1.bm.finalDir
        = foldIns c.bm.finalDir
            (files.map (fun f => (f.name, (⟨f.content, f.mtime⟩ : FileData))))
  | [], _, _, _ => rfl
  | f :: rest, c, evs, k => by
    simpa only [initToFinalFold, List.foldl_cons, List.map_cons, foldIns] using
      initToFinalFold_finalDir nowOf rest
        ⟨backup_file_to_final (nowOf k) f c.bm, insertA f.relPath f.mtime c.lastM⟩
        (evs ++ [Ev.toFinal f.name]) (k + 1)

theorem initToFinalFold_log (nowOf : Nat → Nat) :
    ∀ (files : List SrcFile) (c : WCore) (evs : List Ev) (k : Nat),
      loadFinalLog (initToFinalFold nowOf files c evs k).1.bm
        = foldIns (loadFinalLog c.bm)
            (files.map (fun f => (f.name, (⟨fmtTime f.mtime, md5Digest f.content⟩ : LogEntry))))
  | [], _, _, _ => rfl
  | f :: rest, c, evs, k => by
    simpa only [initToFinalFold, List.foldl_cons, List.map_cons, foldIns] using
      initToFinalFold_log nowOf rest
        ⟨backup_file_to_final (nowOf k) f c.bm, insertA f.relPath f.mtime c.lastM⟩
        (evs ++ [Ev.toFinal f.name]) (k + 1)

theorem initToFinalFold_lastM (nowOf : Nat → Nat) :
    ∀ (files : List SrcFile) (c : WCore) (evs : List Ev) (k : Nat),
      (initToFinalFold nowOf files c evs k).1.lastM
        = foldIns c.lastM (files.map (fun f => (f.relPath, f.mtime)))
  | [], _, _, _ => rfl
  | f :: rest, c, evs, k => by
    simpa only [initToFinalFold, List.foldl_cons, List.map_cons, foldIns] using
      initToFinalFold_lastM nowOf rest
        ⟨backup_file_to_final (nowOf k) f c.bm, insertA f.relPath f.mtime c.lastM⟩
        (evs ++ [Ev.toFinal f.name]) (k + 1)

theorem initToFinalFold_events (nowOf : Nat → Nat) :
    ∀ (files : List SrcFile) (c : WCore) (evs : List Ev) (k : Nat),
      (initToFinalFold nowOf files c evs k).2.1
        = evs ++ files.map (fun f => Ev.toFinal f.name)
  | [], _, evs, _ => by simp [initToFinalFold]
  | f :: rest, c, evs, k => by
    have ht := initToFinalFold_events nowOf rest
        ⟨backup_file_to_final (nowOf k) f c.bm, insertA f.relPath f.mtime c.lastM⟩
        (evs ++ [Ev.toFinal f.name]) (k + 1)
    simp only [initToFinalFold, List.foldl_cons] at ht ⊢
    rw [ht]
    simp

/-- C1: with `use_final_as_initial = true` and an empty FINAL, the
initialization pass backs up every matched file under the watch root
directly into FINAL (creating no timestamped snapshot directory), each
gaining a FinalLog entry keyed by its FINAL-relative path (its flat
basename), and records its modification time. -/
theorem init_empty_final_backs_up_to_final (cfg : WCfg) (tsOf : Nat → String)
    (nowOf : Nat → Nat) (files : List SrcFile) (c : WCore) (k : Nat) (f : SrcFile)
    (hcfg : cfg.useFinalAsInitial = true) (hempty : c.bm.finalDir = [])
    (hnames : ((files.filter (fun g => pmatches cfg g.name)).map SrcFile.name).Nodup)
    (hrels : ((files.filter (fun g => pmatches cfg g.name)).map SrcFile.relPath).Nodup)
    (hf : f ∈ files) (hm : pmatches cfg f.name = true) :
    (initBackupState cfg tsOf nowOf files c k).1.bm.snapshots = c.bm.snapshots ∧
    lookupA f.name (initBackupState cfg tsOf nowOf files c k).1.bm.finalDir
      = some ⟨f.content, f.mtime⟩ ∧
    lookupA f.name (loadFinalLog (initBackupState cfg tsOf nowOf files c k).1.bm)
      = some ⟨fmtTime f.mtime, md5Digest f.content⟩ ∧
    lookupA f.relPath (initBackupState cfg tsOf nowOf files c k).1.lastM
      = some f.mtime ∧
    Ev.toFinal f.name ∈ (initBackupState cfg tsOf nowOf files c k).2.1 := by
  rw [initBackupState_finalBranch cfg tsOf nowOf files c k hcfg hempty]
  set cur := files.filter (fun g => pmatches cfg g.name) with hcur
  have hfc : f ∈ cur := List.mem_filter.mpr ⟨hf, hm⟩
  have hkeys1 : keysA (cur.map (fun g => (g.name, (⟨g.content, g.mtime⟩ : FileData))))
      = cur.map SrcFile.name := by
    simp [keysA, List.map_map]
  have hkeys2 : keysA (cur.map (fun g => (g.name, (⟨fmtTime g.mtime, md5Digest g.content⟩ : LogEntry))))
      = cur.map SrcFile.name := by
    simp [keysA, List.map_map]
  have hkeys3 : keysA (cur.map (fun g => (g.relPath, g.mtime))) = cur.map SrcFile.relPath := by
    simp [keysA, List.map_map]
  refine ⟨initToFinalFold_snapshots nowOf cur c [] k, ?_, ?_, ?_, ?_⟩
  · rw [initToFinalFold_finalDir]
    exact lookupA_foldIns_mem _ _ (by rw [hkeys1]; exact hnames)
      (List.mem_map.mpr ⟨f, hfc, rfl⟩)
  · rw [initToFinalFold_log]
    exact lookupA_foldIns_mem _ _ (by rw [hkeys2]; exact hnames)
      (List.mem_map.mpr ⟨f, hfc, rfl⟩)
  · rw [initToFinalFold_lastM]
    exact lookupA_foldIns_mem _ _ (by rw [hkeys3]; exact hrels)
      (List.mem_map.mpr ⟨f, hfc, rfl⟩)
  · rw [initToFinalFold_events]
    simp only [List.nil_append]
    exact List.mem_map.mpr ⟨f, hfc, rfl⟩

/-- Concrete instantiation of C1: two files under the watch root, empty
FINAL, `use_final_as_initial` on: the first file lands flat in FINAL with
a log entry, no snapshot is created, and its mtime is recorded. -/
theorem init_empty_final_backs_up_to_final_witness :
    (initBackupState ⟨true, false, []⟩ (fun k => toString k) (fun k => k)
      [⟨"", "a.txt", "A", 5⟩, ⟨"sub", "b.txt", "B", 6⟩]
      ⟨⟨none, [], [], none, 0⟩, []⟩ 0).1.bm.snapshots = [] ∧
    lookupA "a.txt" (initBackupState ⟨true, false, []⟩ (fun k => toString k) (fun k => k)
      [⟨"", "a.txt", "A", 5⟩, ⟨"sub", "b.txt", "B", 6⟩]
      ⟨⟨none, [], [], none, 0⟩, []⟩ 0).1.bm.finalDir = some ⟨"A", 5⟩ ∧
    lookupA "a.txt" (loadFinalLog (initBackupState ⟨true, false, []⟩ (fun k => toString k)
      (fun k => k) [⟨"", "a.txt", "A", 5⟩, ⟨"sub", "b.txt", "B", 6⟩]
      ⟨⟨none, [], [], none, 0⟩, []⟩ 0).1.bm)
      = some ⟨fmtTime 5, md5Digest "A"⟩ ∧
    lookupA "a.txt" (initBackupState ⟨true, false, []⟩ (fun k => toString k) (fun k => k)
      [⟨"", "a.txt", "A", 5⟩, ⟨"sub", "b.txt", "B", 6⟩]
      ⟨⟨none, [], [], none, 0⟩, []⟩ 0).1.lastM = some 5 ∧
    Ev.toFinal "a.txt" ∈ (initBackupState ⟨true, false, []⟩ (fun k => toString k) (fun k => k)
      [⟨"", "a.txt", "A", 5⟩, ⟨"sub", "b.txt", "B", 6⟩]
      ⟨⟨none, [], [], none, 0⟩, []⟩ 0).2.1 :=
  init_empty_final_backs_up_to_final ⟨true, false, []⟩ (fun k => toString k) (fun k => k)
    [⟨"", "a.txt", "A", 5⟩, ⟨"sub", "b.txt", "B", 6⟩] ⟨⟨none, [], [], none, 0⟩, []⟩ 0
    ⟨"", "a.txt", "A", 5⟩ rfl rfl (by decide) (by decide) (by decide) rfl

/-! ## C2: retention and preservation-on-prune -/

/-- A sequence of `backup_file` calls: each carries the wall clock's
string and numeric readings and the file backed up. -/
def runBackupSeq (calls : List (String × Nat × SrcFile)) (st : BMState) : BMState :=
  calls.foldl (fun s c => backup_file c.1 c.2.1 c.2.2 s) st

/-- The snapshot directory one `backup_file` call creates. -/
def snapOf (c : String × Nat × SrcFile) : Snap :=
  ⟨c.1, c.2.1, [(c.2.2.name, ⟨c.2.2.content, c.2.2.mtime⟩)]⟩

theorem copyIntoSnap_append (ts : String) (now : Nat) (f : SrcFile) :
    ∀ (snaps : List Snap), ts ∉ snaps.map Snap.name →
      copyIntoSnap ts now f snaps = snaps ++ [snapOf (ts, now, f)]
  | [], _ => rfl
  | s :: rest, h => by
    simp only [List.map_cons, List.mem_cons, not_or] at h
    simp only [copyIntoSnap, if_neg (Ne.symm h.1), List.cons_append]
    rw [copyIntoSnap_append ts now f rest h.2]

theorem stableSort_eq_self {α : Type} (le : α → α → Bool) :
    ∀ (l : List α), List.Chain' (fun a b => le a b = true) l → stableSort le l = l
  | [], _ => rfl
  | [a], _ => rfl
  | a :: b :: rest, h => by
    have hab : le a b = true := (List.chain'_cons.mp h).1
    have ht := stableSort_eq_self le (b :: rest) (List.chain'_cons.mp h).2
    simp only [stableSort, List.foldr_cons] at ht ⊢
    rw [ht, sortedInsert, if_pos hab]

theorem pruneLoop_le (maxV : Nat) (now : Nat) (listing : List String) (st : BMState)
    (h : listing.length ≤ maxV) : pruneLoop maxV now listing st = st := by
  cases listing with
  | nil => rfl
  | cons a rest =>
    simp only [pruneLoop]
    rw [if_neg (by omega)]

/-- A `backup_file` call that stays within the retention limit just
appends its snapshot. -/
theorem backup_file_no_prune (ts : String) (now : Nat) (f : SrcFile) (st : BMState)
    (nv : Nat) (hmax : st.maxVersions = some nv) (hlog : st.finalLog = none)
    (hts : ts ∉ st.snapshots.map Snap.name)
    (hsorted : List.Chain' (fun a b => strLe a b = true) (st.snapshots.map Snap.name ++ [ts]))
    (hfin : ∀ n ∈ st.snapshots.map Snap.name ++ [ts], n ≠ "FINAL")
    (hlen : st.snapshots.length + 1 ≤ nv) :
    backup_file ts now f st = { st with snapshots := st.snapshots ++ [snapOf (ts, now, f)] } := by
  have hnames : (st.snapshots ++ [snapOf (ts, now, f)]).map Snap.name
      = st.snapshots.map Snap.name ++ [ts] := by simp [snapOf]
  have hmax2 : ({ st with snapshots := st.snapshots ++ [snapOf (ts, now, f)] } : BMState).maxVersions
      = some nv := hmax
  have hlog2 : ({ st with snapshots := st.snapshots ++ [snapOf (ts, now, f)] } : BMState).finalLog
      = none := hlog
  have hlist : pruneListing { st with snapshots := st.snapshots ++ [snapOf (ts, now, f)] }
      = st.snapshots.map Snap.name ++ [ts] := by
    unfold pruneListing
    rw [hlog2]
    simp only [hnames, Option.isSome_none, Bool.false_eq_true, if_false, List.append_nil]
    rw [List.filter_eq_self.mpr (fun a ha => by
      simpa using hfin a (by simpa using ha))]
    exact stableSort_eq_self strLe _ hsorted
  have hswap : pruneOldBackups now { st with snapshots := st.snapshots ++ [snapOf (ts, now, f)] }
      = pruneLoop nv now (pruneListing { st with snapshots := st.snapshots ++ [snapOf (ts, now, f)] })
          { st with snapshots := st.snapshots ++ [snapOf (ts, now, f)] } := by
    unfold pruneOldBackups
    rw [hmax2]
  show pruneOldBackups now { st with snapshots := copyIntoSnap ts now f st.snapshots } = _
  rw [copyIntoSnap_append ts now f st.snapshots hts, hswap, hlist]
  exact pruneLoop_le nv now _ _ (by simp; omega)

/-- The fill phase: while the snapshot count stays within the limit, a
backup sequence with fresh, lexicographically increasing, non-FINAL
timestamps appends one snapshot per call and touches nothing else. -/
theorem runBackupSeq_fill (nv : Nat) :
    ∀ (calls : List (String × Nat × SrcFile)) (st : BMState),
      st.maxVersions = some nv → st.finalLog = none →
      st.snapshots.length + calls.length ≤ nv →
      List.Pairwise (fun a b => strLe a b = true ∧ a ≠ b)
        (st.snapshots.map Snap.name ++ calls.map Prod.fst) →
      (∀ n ∈ st.snapshots.map Snap.name ++ calls.map Prod.fst, n ≠ "FINAL") →
      runBackupSeq calls st = { st with snapshots := st.snapshots ++ calls.map snapOf }
  | [], st, _, _, _, _, _ => by simp [runBackupSeq]
  | c :: rest, st, hmax, hlog, hlen, hpw, hfin => by
    have hn1 : st.snapshots.map Snap.name ++ (c :: rest).map Prod.fst
        = (st.snapshots.map Snap.name ++ [c.1]) ++ rest.map Prod.fst := by simp
    have hts : c.1 ∉ st.snapshots.map Snap.name := by
      intro hmem
      have := (List.pairwise_append.mp hpw).2.2 c.1 hmem c.1 (by simp)
      exact this.2 rfl
    have hsub1 : (st.snapshots.map Snap.name ++ [c.1]).Sublist
        (st.snapshots.map Snap.name ++ (c :: rest).map Prod.fst) := by
      apply List.Sublist.append_left
      simp
    have hsorted : List.Chain' (fun a b => strLe a b = true)
        (st.snapshots.map Snap.name ++ [c.1]) :=
      ((hpw.sublist hsub1).imp (fun h => h.1)).chain'
    have hstep := backup_file_no_prune c.1 c.2.1 c.2.2 st nv hmax hlog hts hsorted
      (fun n hn => hfin n (hsub1.mem hn)) (by simp at hlen ⊢; omega)
    have hrest := runBackupSeq_fill nv rest { st with snapshots := st.snapshots ++ [snapOf c] }
      hmax hlog (by simp at hlen ⊢; omega)
      (by
        rw [hn1] at hpw
        simpa [snapOf] using hpw)
      (by
        intro n hn
        refine hfin n ?_
        rw [hn1]
        simpa [snapOf] using hn)
    calc runBackupSeq (c :: rest) st
        = runBackupSeq rest (backup_file c.1 c.2.1 c.2.2 st) := rfl
      _ = runBackupSeq rest { st with snapshots := st.snapshots ++ [snapOf c] } := by rw [hstep]
      _ = { st with snapshots := st.snapshots ++ [snapOf c] ++ rest.map snapOf } := hrest
      _ = { st with snapshots := st.snapshots ++ (c :: rest).map snapOf } := by simp

/-- The overflow step: a `backup_file` call arriving with the retention
limit already reached pops the lexicographically oldest snapshot,
preserves its (single) file into `FINAL/<snapshotName>/`, logs it, and
deletes the snapshot, leaving the other snapshots plus the new one. -/
theorem backup_file_prune_once (ts : String) (now : Nat) (f : SrcFile)
    (n0 : String) (dm0 : Nat) (bn0 : String) (fd0 : FileData) (srest : List Snap)
    (st : BMState) (nv : Nat)
    (hsnap : st.snapshots = ⟨n0, dm0, [(bn0, fd0)]⟩ :: srest)
    (hmax : st.maxVersions = some nv) (hlog : st.finalLog = none) (hfd : st.finalDir = [])
    (hpw : List.Pairwise (fun a b => strLe a b = true ∧ a ≠ b)
      (st.snapshots.map Snap.name ++ [ts]))
    (hfin : ∀ n ∈ st.snapshots.map Snap.name ++ [ts], n ≠ "FINAL")
    (hlen : st.snapshots.length = nv) :
    backup_file ts now f st =
      { st with
        snapshots := srest ++ [snapOf (ts, now, f)],
        finalDir := [(n0 ++ "/" ++ bn0, fd0)],
        finalLog := some [(n0 ++ "/" ++ bn0, ⟨fmtTime fd0.mtime, md5Digest fd0.content⟩)],
        finalMtime := now } := by
  have hts : ts ∉ st.snapshots.map Snap.name := by
    intro hmem
    have := (List.pairwise_append.mp hpw).2.2 ts hmem ts (by simp)
    exact this.2 rfl
  have hcopy : copyIntoSnap ts now f st.snapshots = st.snapshots ++ [snapOf (ts, now, f)] :=
    copyIntoSnap_append ts now f st.snapshots hts
  -- the listing seen by the prune
  have hnames : (st.snapshots ++ [snapOf (ts, now, f)]).map Snap.name
      = st.snapshots.map Snap.name ++ [ts] := by simp [snapOf]
  have hlog2 : ({ st with snapshots := st.snapshots ++ [snapOf (ts, now, f)] } : BMState).finalLog
      = none := hlog
  have hlist : pruneListing { st with snapshots := st.snapshots ++ [snapOf (ts, now, f)] }
      = st.snapshots.map Snap.name ++ [ts] := by
    unfold pruneListing
    rw [hlog2]
    simp only [hnames, Option.isSome_none, Bool.false_eq_true, if_false, List.append_nil]
    rw [List.filter_eq_self.mpr (fun a ha => by
      simpa using hfin a (by simpa using ha))]
    exact stableSort_eq_self strLe _ (hpw.imp (fun h => h.1)).chain'
  have hmax2 : ({ st with snapshots := st.snapshots ++ [snapOf (ts, now, f)] } : BMState).maxVersions
      = some nv := hmax
  have hswap : pruneOldBackups now { st with snapshots := st.snapshots ++ [snapOf (ts, now, f)] }
      = pruneLoop nv now (pruneListing { st with snapshots := st.snapshots ++ [snapOf (ts, now, f)] })
          { st with snapshots := st.snapshots ++ [snapOf (ts, now, f)] } := by
    unfold pruneOldBackups
    rw [hmax2]
  -- names of the later snapshots all differ from n0
  have hpw2 : List.Pairwise (fun a b => strLe a b = true ∧ a ≠ b)
      (n0 :: (srest.map Snap.name ++ [ts])) := by
    rw [hsnap] at hpw
    simpa using hpw
  have hn0 : ∀ s ∈ srest ++ [snapOf (ts, now, f)], s.name ≠ n0 := by
    intro s hs
    have hmem : s.name ∈ srest.map Snap.name ++ [ts] := by
      rcases List.mem_append.mp hs with h | h
      · exact List.mem_append.mpr (Or.inl (List.mem_map.mpr ⟨s, h, rfl⟩))
      · simp at h
        simp [h, snapOf]
    have hrel := (List.pairwise_cons.mp hpw2).1 s.name hmem
    exact fun hc => hrel.2 hc.symm
  have hsl : srest.length + 1 = nv := by
    rw [hsnap] at hlen
    simpa using hlen
  -- the state after the copy
  have hpres : preserveFilesInFinal n0 now
      { st with snapshots := ⟨n0, dm0, [(bn0, fd0)]⟩ :: (srest ++ [snapOf (ts, now, f)]) }
      = { st with
          snapshots := ⟨n0, dm0, [(bn0, fd0)]⟩ :: (srest ++ [snapOf (ts, now, f)]),
          finalDir := [(n0 ++ "/" ++ bn0, fd0)],
          finalLog := some [(n0 ++ "/" ++ bn0, ⟨fmtTime fd0.mtime, md5Digest fd0.content⟩)],
          finalMtime := now } := by
    unfold preserveFilesInFinal
    rw [List.find?_cons_of_pos _ (by simp)]
    simp [loadFinalLog, hlog, hfd, lookupA, insertA]
  have hrem : removeSnap n0
      { st with
        snapshots := ⟨n0, dm0, [(bn0, fd0)]⟩ :: (srest ++ [snapOf (ts, now, f)]),
        finalDir := [(n0 ++ "/" ++ bn0, fd0)],
        finalLog := some [(n0 ++ "/" ++ bn0, ⟨fmtTime fd0.mtime, md5Digest fd0.content⟩)],
        finalMtime := now }
      = { st with
          snapshots := srest ++ [snapOf (ts, now, f)],
          finalDir := [(n0 ++ "/" ++ bn0, fd0)],
          finalLog := some [(n0 ++ "/" ++ bn0, ⟨fmtTime fd0.mtime, md5Digest fd0.content⟩)],
          finalMtime := now } := by
    unfold removeSnap
    simp only [List.filter_cons]
    rw [if_neg (by simp)]
    congr 1
    exact List.filter_eq_self.mpr (fun s hs => by simpa using hn0 s hs)
  show pruneOldBackups now { st with snapshots := copyIntoSnap ts now f st.snapshots } = _
  rw [hcopy, hswap, hlist, hsnap]
  simp only [List.map_cons, List.cons_append]
  rw [pruneLoop]
  rw [if_pos (by simp; omega)]
  rw [List.find?_cons_of_pos _ (by simp)]
  simp only [Option.isSome_some, if_true]
  rw [hpres, hrem]
  exact pruneLoop_le nv now _ _ (by simp; omega)

theorem map_name_snapOf (l : List (String × Nat × SrcFile)) :
    (l.map snapOf).map Snap.name = l.map Prod.fst := by
  simp [snapOf, List.map_map]

/-- C2: with retention limit `nv`, after `nv + 1` successive `backupFile`
calls with distinct content for the same relative path (fresh,
lexicographically increasing, non-FINAL timestamps) starting from an empty
backup root, the backup root holds exactly `nv` non-FINAL snapshot
directories (those of the last `nv` calls) besides the always-present
FINAL, and FINAL holds, under the sub-directory named with the pruned
snapshot's timestamp, a byte-identical copy (content and mtime) of the
oldest version. -/
theorem retention_prunes_oldest_into_final (nv fm : Nat)
    (c0 clast : String × Nat × SrcFile) (mid : List (String × Nat × SrcFile)) (bname : String)
    (hlen : mid.length + 1 = nv)
    (hpw : List.Pairwise (fun a b => strLe a b = true ∧ a ≠ b)
      ((c0 :: (mid ++ [clast])).map Prod.fst))
    (hfin : ∀ n ∈ (c0 :: (mid ++ [clast])).map Prod.fst, n ≠ "FINAL")
    (hbn : ∀ c ∈ c0 :: (mid ++ [clast]), c.2.2.name = bname)
    (_hcont : ((c0 :: (mid ++ [clast])).map (fun c => c.2.2.content)).Nodup) :
    (runBackupSeq (c0 :: (mid ++ [clast])) ⟨some nv, [], [], none, fm⟩).snapshots.length = nv ∧
    (runBackupSeq (c0 :: (mid ++ [clast])) ⟨some nv, [], [], none, fm⟩).snapshots.map Snap.name
      = (mid ++ [clast]).map Prod.fst ∧
    (runBackupSeq (c0 :: (mid ++ [clast])) ⟨some nv, [], [], none, fm⟩).finalDir
      = [(c0.1 ++ "/" ++ bname, ⟨c0.2.2.content, c0.2.2.mtime⟩)] := by
  have hsplit : runBackupSeq (c0 :: (mid ++ [clast])) ⟨some nv, [], [], none, fm⟩
      = backup_file clast.1 clast.2.1 clast.2.2
          (runBackupSeq (c0 :: mid) ⟨some nv, [], [], none, fm⟩) := by
    show runBackupSeq ((c0 :: mid) ++ [clast]) _ = _
    simp [runBackupSeq, List.foldl_append]
  have hsub : ((c0 :: mid).map Prod.fst).Sublist
      ((c0 :: (mid ++ [clast])).map Prod.fst) := by
    simp only [List.map_cons, List.map_append, List.map_nil]
    exact List.Sublist.cons₂ _ (List.sublist_append_left _ _)
  have hfill := runBackupSeq_fill nv (c0 :: mid) ⟨some nv, [], [], none, fm⟩ rfl rfl
    (by simp; omega)
    (by simpa using hpw.sublist hsub)
    (by
      intro n hn
      exact hfin n (hsub.mem (by simpa using hn)))
  have hfillsnap : (runBackupSeq (c0 :: mid) ⟨some nv, [], [], none, fm⟩).snapshots
      = snapOf c0 :: mid.map snapOf := by
    rw [hfill]
    simp
  have hname0 : c0.2.2.name = bname := hbn c0 (by simp)
  have hsnapc0 : snapOf c0 = ⟨c0.1, c0.2.1, [(bname, ⟨c0.2.2.content, c0.2.2.mtime⟩)]⟩ := by
    simp [snapOf, hname0]
  have hmapnames : (snapOf c0 :: mid.map snapOf).map Snap.name ++ [clast.1]
      = (c0 :: (mid ++ [clast])).map Prod.fst := by
    simp [snapOf, List.map_map]
  have hstep := backup_file_prune_once clast.1 clast.2.1 clast.2.2
    c0.1 c0.2.1 bname ⟨c0.2.2.content, c0.2.2.mtime⟩ (mid.map snapOf)
    (runBackupSeq (c0 :: mid) ⟨some nv, [], [], none, fm⟩) nv
    (by rw [hfillsnap, hsnapc0])
    (by rw [hfill]) (by rw [hfill]) (by rw [hfill])
    (by
      rw [hfillsnap, hmapnames]
      exact hpw)
    (by
      intro n hn
      refine hfin n ?_
      rw [hfillsnap, hmapnames] at hn
      exact hn)
    (by
      rw [hfillsnap]
      simp
      omega)
  rw [hsplit, hstep]
  refine ⟨by simp; omega, ?_, rfl⟩
  simp [map_name_snapOf, snapOf]

/-- Concrete instantiation of C2: retention 2, three backups of distinct
content for `doc.txt`; two snapshots remain and FINAL holds the oldest
version under the pruned snapshot's timestamp. -/
theorem retention_prunes_oldest_into_final_witness :
    (runBackupSeq [("T1", 101, ⟨"", "doc.txt", "c1", 10⟩), ("T2", 102, ⟨"", "doc.txt", "c2", 20⟩),
        ("T3", 103, ⟨"", "doc.txt", "c3", 30⟩)] ⟨some 2, [], [], none, 0⟩).snapshots.length = 2 ∧
    (runBackupSeq [("T1", 101, ⟨"", "doc.txt", "c1", 10⟩), ("T2", 102, ⟨"", "doc.txt", "c2", 20⟩),
        ("T3", 103, ⟨"", "doc.txt", "c3", 30⟩)]
      ⟨some 2, [], [], none, 0⟩).snapshots.map Snap.name = ["T2", "T3"] ∧
    (runBackupSeq [("T1", 101, ⟨"", "doc.txt", "c1", 10⟩), ("T2", 102, ⟨"", "doc.txt", "c2", 20⟩),
        ("T3", 103, ⟨"", "doc.txt", "c3", 30⟩)]
      ⟨some 2, [], [], none, 0⟩).finalDir = [("T1" ++ "/" ++ "doc.txt", ⟨"c1", 10⟩)] :=
  retention_prunes_oldest_into_final 2 0 ("T1", 101, ⟨"", "doc.txt", "c1", 10⟩)
    ("T3", 103, ⟨"", "doc.txt", "c3", 30⟩) [("T2", 102, ⟨"", "doc.txt", "c2", 20⟩)] "doc.txt"
    (by decide) (by decide) (by decide) (by decide) (by decide)

/-! ## C3: unchanged content during the poll loop

The poll loop does not compare against the digest seen at the previous
scan: it compares against the same-named file in the single latest backup
directory.  When the latest snapshot was produced for a different file,
the comparison sees no copy at all and backs the file up even though its
content never changed. -/

/-- Watcher configuration of the C3 scenario: no FINAL baseline, new
files watched, every filename matched. -/
def c3Cfg : WCfg := ⟨false, true, []⟩

/-- Wall clock of the C3 scenario, offset per scan. -/
def c3Ts (base : Nat) : Nat → String := fun k => toString (base + k)

/-- Numeric wall clock of the C3 scenario. -/
def c3Now (base : Nat) : Nat → Nat := fun k => base + k

/-- The watched file `a.txt`, whose content never changes. -/
def c3FileA (m : Nat) : SrcFile := ⟨"", "a.txt", "hello", m⟩

/-- A second file appearing later, which produces the newer snapshot. -/
def c3FileB : SrcFile := ⟨"", "b.txt", "bee", 15⟩

/-- First scan: `a.txt` is new and gets backed up. -/
def c3Scan1 : WCore × List Ev × Nat :=
  performPeriodicScan c3Cfg (c3Ts 100) (c3Now 100) [c3FileA 5] ⟨⟨none, [], [], none, 0⟩, []⟩ 0

/-- Second scan: `a.txt` unchanged; `b.txt` new, backed up into the now
latest snapshot. -/
def c3Scan2 : WCore × List Ev × Nat :=
  performPeriodicScan c3Cfg (c3Ts 200) (c3Now 200) [c3FileA 5, c3FileB] c3Scan1.1 0

/-- Third scan: `a.txt` touched (mtime 5 → 6) with identical content. -/
def c3Scan3 : WCore × List Ev × Nat :=
  performPeriodicScan c3Cfg (c3Ts 300) (c3Now 300) [c3FileA 6, c3FileB] c3Scan2.1 0

/-- C3 counterexample: `a.txt` has byte-identical content (hence an
unchanged digest) in two successive scans, it was not backed up in the
second scan, yet the third scan calls `backupFile` on it and creates a
new snapshot directory — because the latest backup directory (created for
`b.txt`) holds no copy of `a.txt` to compare against. -/
theorem unchanged_digest_still_backed_up_counterexample :
    (c3FileA 6).content = (c3FileA 5).content ∧
    md5Digest (c3FileA 6).content = md5Digest (c3FileA 5).content ∧
    c3Scan2.2.1 = [Ev.snap "b.txt"] ∧
    c3Scan3.2.1 = [Ev.snap "a.txt"] ∧
    c3Scan3.1.bm.snapshots.length = c3Scan2.1.bm.snapshots.length + 1 := by
  refine ⟨rfl, rfl, ?_, ?_, ?_⟩ <;> decide

/-- C3 as amended: a watched file with a recorded modification time
triggers no `backupFile` call when its mtime has not increased; and on an
mtime increase it triggers no `backupFile` call provided the current
latest backup directory holds a same-basename copy whose digest equals
the file's current digest (an unchanged-content touch is re-backed-up
whenever the latest backup directory lacks such a copy). -/
theorem known_file_no_backup_when_latest_copy_matches (cfg : WCfg) (ts : String)
    (now : Nat) (f : SrcFile) (c : WCore) (lm : Nat)
    (hlm : lookupA f.relPath c.lastM = some lm) :
    (f.mtime ≤ lm → checkAndBackupFile cfg ts now f c = (c, [])) ∧
    (∀ d g, getLatestBackupDir cfg c.bm = some d →
      fileInDir d f.name c.bm = some g →
      md5Digest g.content = md5Digest f.content →
      (checkAndBackupFile cfg ts now f c).1.bm = c.bm ∧
      (checkAndBackupFile cfg ts now f c).2 = []) := by
  constructor
  · intro hle
    simp only [checkAndBackupFile, hlm]
    rw [if_neg (by omega)]
  · intro d g hd hg hdig
    simp only [checkAndBackupFile, hlm]
    by_cases hmt : f.mtime > lm
    · rw [if_pos hmt]
      simp only [hd, hg]
      simp [hdig]
    · rw [if_neg hmt]
      exact ⟨rfl, rfl⟩

/-- Concrete instantiation of the amended C3: the latest backup directory
holds a same-digest copy of the touched file, so nothing is backed up. -/
theorem known_file_no_backup_when_latest_copy_matches_witness :
    (checkAndBackupFile ⟨false, true, []⟩ "T9" 999 ⟨"", "a.txt", "hello", 6⟩
      ⟨⟨none, [⟨"T1", 10, [("a.txt", ⟨"hello", 5⟩)]⟩], [], none, 0⟩,
       [("a.txt", 5)]⟩).1.bm
      = ⟨none, [⟨"T1", 10, [("a.txt", ⟨"hello", 5⟩)]⟩], [], none, 0⟩ ∧
    (checkAndBackupFile ⟨false, true, []⟩ "T9" 999 ⟨"", "a.txt", "hello", 6⟩
      ⟨⟨none, [⟨"T1", 10, [("a.txt", ⟨"hello", 5⟩)]⟩], [], none, 0⟩,
       [("a.txt", 5)]⟩).2 = [] :=
  (known_file_no_backup_when_latest_copy_matches ⟨false, true, []⟩ "T9" 999
    ⟨"", "a.txt", "hello", 6⟩
    ⟨⟨none, [⟨"T1", 10, [("a.txt", ⟨"hello", 5⟩)]⟩], [], none, 0⟩, [("a.txt", 5)]⟩ 5
    (by decide)).2 "T1" ⟨"hello", 5⟩ (by decide) (by decide) rfl

/-! ## C7: `watch_new_files` gating -/

/-- A sequence of periodic scans, each with its own configuration, wall
clock, and directory contents; events are concatenated in order. -/
def runScans : List (WCfg × (Nat → String) × (Nat → Nat) × List SrcFile) → WCore →
    WCore × List Ev
  | [], c => (c, [])
  | s :: rest, c =>
    let r := performPeriodicScan s.1 s.2.1 s.2.2.1 s.2.2.2 c 0
    let r2 := runScans rest r.1
    (r2.1, r.2.1 ++ r2.2)

theorem checkAndBackupFile_lastM_other (cfg : WCfg) (ts : String) (now : Nat)
    (f : SrcFile) (c : WCore) (p : String) (hne : f.relPath ≠ p) :
    lookupA p (checkAndBackupFile cfg ts now f c).1.lastM = lookupA p c.lastM := by
  unfold checkAndBackupFile
  split
  · split
    · simp [lookupA_insertA_ne _ _ _ _ hne]
    · rfl
  · split
    · split
      · simp [lookupA_insertA_ne _ _ _ _ hne]
      · simp only [apply_ite (fun x : WCore × List Ev => x.1.lastM)]
        simp [lookupA_insertA_ne _ _ _ _ hne]
    · rfl

theorem checkAndBackupFile_preserves_unknown (cfg : WCfg) (ts : String) (now : Nat)
    (f : SrcFile) (c : WCore) (p : String) (hflag : cfg.watchNewFiles = false)
    (hp : lookupA p c.lastM = none) :
    lookupA p (checkAndBackupFile cfg ts now f c).1.lastM = none ∧
    ∀ ev ∈ (checkAndBackupFile cfg ts now f c).2, ev ≠ Ev.snap p ∧ ev ≠ Ev.toFinal p := by
  cases hl : lookupA f.relPath c.lastM with
  | none =>
    simp only [checkAndBackupFile, hl, hflag]
    simp [hp]
  | some lm =>
    have hne : f.relPath ≠ p := fun h => by rw [h, hp] at hl; cases hl
    have hins : lookupA p (insertA f.relPath f.mtime c.lastM) = none := by
      rw [lookupA_insertA_ne _ _ _ _ hne]
      exact hp
    simp only [checkAndBackupFile, hl]
    split
    · split
      · exact ⟨hins, by simp [hne]⟩
      · exact ⟨hins, by simp⟩
    · exact ⟨hp, by simp⟩

theorem scanFold_events_mono (cfg : WCfg) (tsOf : Nat → String) (nowOf : Nat → Nat) :
    ∀ (files : List SrcFile) (acc : WCore × List Ev × Nat) (ev : Ev),
      ev ∈ acc.2.1 → ev ∈ (scanFold cfg tsOf nowOf files acc).2.1
  | [], _, _, h => h
  | f :: rest, acc, ev, h => by
    simp only [scanFold, List.foldl_cons]
    by_cases hm : pmatches cfg f.name
    · simp only [hm, if_true]
      exact scanFold_events_mono cfg tsOf nowOf rest _ ev (by simp [h])
    · simp only [hm]
      exact scanFold_events_mono cfg tsOf nowOf rest _ ev (by simp [h])

theorem scanFold_preserves_unknown (cfg : WCfg) (tsOf : Nat → String) (nowOf : Nat → Nat)
    (p : String) (hflag : cfg.watchNewFiles = false) :
    ∀ (files : List SrcFile) (c : WCore) (evs : List Ev) (k : Nat),
      lookupA p c.lastM = none →
      (∀ ev ∈ evs, ev ≠ Ev.snap p ∧ ev ≠ Ev.toFinal p) →
      lookupA p (scanFold cfg tsOf nowOf files (c, evs, k)).1.lastM = none ∧
      ∀ ev ∈ (scanFold cfg tsOf nowOf files (c, evs, k)).2.1,
        ev ≠ Ev.snap p ∧ ev ≠ Ev.toFinal p
  | [], c, evs, k, hp, hevs => ⟨hp, hevs⟩
  | f :: rest, c, evs, k, hp, hevs => by
    simp only [scanFold, List.foldl_cons]
    by_cases hm : pmatches cfg f.name
    · simp only [hm, if_true]
      have hcheck := checkAndBackupFile_preserves_unknown cfg (tsOf k) (nowOf k) f c p hflag hp
      exact scanFold_preserves_unknown cfg tsOf nowOf p hflag rest _ _ _ hcheck.1
        (by
          intro ev hev
          rcases List.mem_append.mp hev with h | h
          · exact hevs ev h
          · exact hcheck.2 ev h)
    · simp only [hm]
      exact scanFold_preserves_unknown cfg tsOf nowOf p hflag rest _ _ _ hp hevs

theorem scanFold_backs_up_new (cfg : WCfg) (tsOf : Nat → String) (nowOf : Nat → Nat)
    (p : String) (hflag : cfg.watchNewFiles = true) :
    ∀ (files : List SrcFile) (c : WCore) (evs : List Ev) (k : Nat) (f : SrcFile),
      f ∈ files → pmatches cfg f.name = true → f.relPath = p →
      (Ev.snap p ∈ evs ∨ lookupA p c.lastM = none) →
      Ev.snap p ∈ (scanFold cfg tsOf nowOf files (c, evs, k)).2.1
  | [], _, _, _, _, hf, _, _, _ => by cases hf
  | g :: rest, c, evs, k, f, hf, hmatch, hrel, hinv => by
    simp only [scanFold, List.foldl_cons]
    by_cases hm : pmatches cfg g.name
    · simp only [hm, if_true]
      rcases hinv with hev | hunk
      · exact scanFold_events_mono cfg tsOf nowOf rest _ _ (by simp [hev])
      · by_cases hgrel : g.relPath = p
        · -- g occupies the path: with the flag on it gets backed up now
          have hgc : checkAndBackupFile cfg (tsOf k) (nowOf k) g c
              = ({ bm := backup_file (tsOf k) (nowOf k) g c.bm,
                   lastM := insertA g.relPath g.mtime c.lastM }, [Ev.snap g.relPath]) := by
            have hl : lookupA g.relPath c.lastM = none := by rw [hgrel]; exact hunk
            simp only [checkAndBackupFile, hl, hflag, if_true]
          refine scanFold_events_mono cfg tsOf nowOf rest _ _ ?_
          rw [hgc]
          simp [hgrel]
        · rcases List.mem_cons.mp hf with hfg | hfr
          · exact absurd (hfg ▸ hrel) hgrel
          · refine scanFold_backs_up_new cfg tsOf nowOf p hflag rest _ _ _ f hfr hmatch hrel
              (Or.inr ?_)
            rw [checkAndBackupFile_lastM_other cfg (tsOf k) (nowOf k) g c p hgrel]
            exact hunk
    · simp only [hm]
      rcases List.mem_cons.mp hf with hfg | hfr
      · rw [hfg] at hmatch
        rw [hmatch] at hm
        exact absurd rfl hm
      · exact scanFold_backs_up_new cfg tsOf nowOf p hflag rest _ _ _ f hfr hmatch hrel hinv

/-- C7: with `watch_new_files = false`, a file that first appears after
initialization (no recorded mtime) is never backed up by any number of
subsequent scans while the flag stays false — no backup event for its
path occurs and it stays unrecorded — and a scan run after the flag is
enabled does back it up. -/
theorem new_file_ignored_until_flag_enabled
    (scans : List (WCfg × (Nat → String) × (Nat → Nat) × List SrcFile)) (c : WCore)
    (p : String)
    (hall : ∀ s ∈ scans, s.1.watchNewFiles = false)
    (hp : lookupA p c.lastM = none) :
    ((∀ ev ∈ (runScans scans c).2, ev ≠ Ev.snap p ∧ ev ≠ Ev.toFinal p) ∧
      lookupA p (runScans scans c).1.lastM = none) ∧
    (∀ (cfg : WCfg) (tsOf : Nat → String) (nowOf : Nat → Nat) (files : List SrcFile)
        (f : SrcFile),
      cfg.watchNewFiles = true → f ∈ files → pmatches cfg f.name = true → f.relPath = p →
      Ev.snap p ∈ (performPeriodicScan cfg tsOf nowOf files (runScans scans c).1 0).2.1) := by
  have hA : (∀ ev ∈ (runScans scans c).2, ev ≠ Ev.snap p ∧ ev ≠ Ev.toFinal p) ∧
      lookupA p (runScans scans c).1.lastM = none := by
    induction scans generalizing c with
    | nil => exact ⟨by simp [runScans], hp⟩
    | cons s rest ih =>
      have hs := scanFold_preserves_unknown s.1 s.2.1 s.2.2.1 p (hall s (by simp))
        s.2.2.2 c [] 0 hp (by simp)
      have hr := ih (fun t ht => hall t (by simp [ht]))
        (c := (performPeriodicScan s.1 s.2.1 s.2.2.1 s.2.2.2 c 0).1) hs.1
      refine ⟨?_, hr.2⟩
      intro ev hev
      simp only [runScans] at hev
      rcases List.mem_append.mp hev with h | h
      · exact hs.2 ev h
      · exact hr.1 ev h
  refine ⟨hA, ?_⟩
  intro cfg tsOf nowOf files f hflag hf hmatch hrel
  exact scanFold_backs_up_new cfg tsOf nowOf p hflag files _ [] 0 f hf hmatch hrel
    (Or.inr hA.2)

/-- Concrete instantiation of C7: one scan with the flag off ignores the
new file `n.txt` entirely; a following scan with the flag on backs it
up. -/
theorem new_file_ignored_until_flag_enabled_witness :
    (∀ ev ∈ (runScans [(⟨false, false, []⟩, fun k => toString k, fun k => k,
        [⟨"", "n.txt", "new", 7⟩])] ⟨⟨none, [], [], none, 0⟩, []⟩).2,
      ev ≠ Ev.snap "n.txt" ∧ ev ≠ Ev.toFinal "n.txt") ∧
    Ev.snap "n.txt" ∈ (performPeriodicScan ⟨false, true, []⟩ (fun k => toString (10 + k))
      (fun k => 10 + k) [⟨"", "n.txt", "new", 7⟩]
      (runScans [(⟨false, false, []⟩, fun k => toString k, fun k => k,
        [⟨"", "n.txt", "new", 7⟩])] ⟨⟨none, [], [], none, 0⟩, []⟩).1 0).2.1 := by
  have h := new_file_ignored_until_flag_enabled
    [(⟨false, false, []⟩, fun k => toString k, fun k => k, [⟨"", "n.txt", "new", 7⟩])]
    ⟨⟨none, [], [], none, 0⟩, []⟩ "n.txt" (by decide) (by decide)
  exact ⟨h.1.1, h.2 ⟨false, true, []⟩ (fun k => toString (10 + k)) (fun k => 10 + k)
    [⟨"", "n.txt", "new", 7⟩] ⟨"", "n.txt", "new", 7⟩ rfl (by decide) (by decide) (by decide)⟩

/-! ## C10: `start()` versus `stop()` ordering -/

/-- C10: `start()` performs the whole initialization pass before touching
the running flag and then sets it to true unconditionally; hence a
`stop()` issued beforehand changes nothing — the same initialization
backups happen (identical state and events) and the poll loop is still
entered with the flag true. -/
theorem start_unaffected_by_prior_stop (cfg : WCfg) (tsOf : Nat → String)
    (nowOf : Nat → Nat) (files : List SrcFile) (w : WState) (k : Nat) :
    startW cfg tsOf nowOf files (stopW w) k = startW cfg tsOf nowOf files w k ∧
    (startW cfg tsOf nowOf files w k).1.running = true :=
  ⟨rfl, rfl⟩

/-! ## C4: lock discipline of the BackupManager operations

`backup_file` and `backup_file_to_final` wrap their whole bodies in
`with self.lock`; `merge_final_on_demand` has no `with self.lock` at all,
and `_preserve_files_in_final` takes none of its own (it runs under the
lock only when reached through `backup_file`'s prune).  The lock
behaviour is modelled structurally: each operation is rendered as the
sequence of lock actions and mutating filesystem/log calls its body
performs, in source order. -/

/-- One atomic action of a BackupManager operation: acquiring or
releasing the instance lock, or one mutating call (tagged by the source
call it stands for). -/
inductive Act where
  | acq
  | rel
  | touch (tag : String)
  deriving DecidableEq, Repr

/-- `backup_file`: `with self.lock:` around makedirs, copy2 and the prune
(shown here with one overflowing snapshot being preserved and removed). -/
def backupFileTrace : List Act :=
  [.acq, .touch "makedirsBackupRoot", .touch "makedirsSnapDir", .touch "copy2Snap",
   .touch "makedirsFinalSub", .touch "copy2Final", .touch "saveFinalLog",
   .touch "rmtreeSnapshot", .rel]

/-- `backup_file_to_final`: `with self.lock:` around makedirs, copy2 and
the log update. -/
def backupFileToFinalTrace : List Act :=
  [.acq, .touch "makedirsFinal", .touch "copy2Final", .touch "saveFinalLog", .rel]

/-- `merge_final_on_demand`: its body mutates FINAL and rewrites the log
with no lock acquisition anywhere. -/
def mergeFinalTrace : List Act :=
  [.touch "makedirsFinal", .touch "makedirsDest", .touch "copy2Final", .touch "saveFinalLog"]

/-- `_preserve_files_in_final` invoked on its own: mutations, no lock. -/
def preserveFinalTrace : List Act :=
  [.touch "makedirsFinalSub", .touch "copy2Final", .touch "saveFinalLog"]

/-- Does a single-thread trace perform every mutation while holding the
lock (acquired exactly when free, released exactly when held, and held at
every mutation)? -/
def guardedFrom : Bool → List Act → Bool
  | held, [] => !held
  | held, Act.acq :: r => if held then false else guardedFrom true r
  | held, Act.rel :: r => if held then guardedFrom false r else false
  | held, Act.touch _ :: r => if held then guardedFrom held r else false

/-- A trace whose every mutation is inside an acquire/release section. -/
def lockGuarded (tr : List Act) : Bool :=
  guardedFrom false tr

/-- Lock semantics of a two-thread execution (thread ids are `Bool`):
`acq` succeeds only when the lock is free, `rel` only by the holder;
mutating calls are plain memory/filesystem accesses needing no lock. -/
def execValid : Option Bool → List (Bool × Act) → Bool
  | _, [] => true
  | owner, (t, Act.acq) :: r =>
    match owner with
    | none => execValid (some t) r
    | some _ => false
  | owner, (t, Act.rel) :: r =>
    match owner with
    | some u => if u = t then execValid none r else false
    | none => false
  | owner, (_, Act.touch _) :: r => execValid owner r

/-- The actions of one thread within an execution, in order. -/
def projT (b : Bool) (e : List (Bool × Act)) : List Act :=
  e.filterMap (fun p => if p.1 = b then some p.2 else none)

/-- `e` is an interleaving of trace `t0` (thread `false`) and trace `t1`
(thread `true`). -/
def isInterleavingOf (e : List (Bool × Act)) (t0 t1 : List Act) : Prop :=
  projT false e = t0 ∧ projT true e = t1

/-- The thread ids of the mutating actions of an execution, in order. -/
def mutOwners (e : List (Bool × Act)) : List Bool :=
  e.filterMap (fun p => match p.2 with | Act.touch _ => some p.1 | _ => none)

/-- The mutations of the two threads do not interleave: one thread's
mutations all come before the other's. -/
def unmixed (l : List Bool) : Bool :=
  ((l.dropWhile (fun x => !x)).all (fun x => x)) ||
  ((l.dropWhile (fun x => x)).all (fun x => !x))

/-- An execution interleaving `backup_file` (thread `false`) with
`merge_final_on_demand` (thread `true`): the merge's mutations land in
the middle of the locked backup body. -/
def mergeInterleavedExec : List (Bool × Act) :=
  [(false, .acq), (false, .touch "makedirsBackupRoot"), (false, .touch "makedirsSnapDir"),
   (true, .touch "makedirsFinal"), (true, .touch "makedirsDest"), (true, .touch "copy2Final"),
   (false, .touch "copy2Snap"), (false, .touch "makedirsFinalSub"),
   (false, .touch "copy2Final"), (true, .touch "saveFinalLog"),
   (false, .touch "saveFinalLog"), (false, .touch "rmtreeSnapshot"), (false, .rel)]

/-- C4 counterexample: `merge_final_on_demand` acquires no lock, so an
execution in which its body mutations interleave with the locked body of
`backup_file` on the same instance is valid under the lock semantics —
the four operations are not mutually serialized as claimed. -/
theorem merge_unlocked_interleaving_counterexample :
    lockGuarded mergeFinalTrace = false ∧
    isInterleavingOf mergeInterleavedExec backupFileTrace mergeFinalTrace ∧
    execValid none mergeInterleavedExec = true ∧
    unmixed (mutOwners mergeInterleavedExec) = false := by
  refine ⟨rfl, ⟨?_, ?_⟩, rfl, rfl⟩ <;> rfl

/-! Mutual exclusion of the two locked operations: a lock-valid execution
of two acquire/body/release blocks cannot interleave their mutations. -/

theorem projT_cons (b u : Bool) (a : Act) (r : List (Bool × Act)) :
    projT b ((u, a) :: r) = if u = b then a :: projT b r else projT b r := by
  by_cases h : u = b <;> simp [projT, List.filterMap_cons, h]

/-- An acquire/mutations/release block. -/
def lockBlock (m : List String) : List Act :=
  Act.acq :: (m.map Act.touch ++ [Act.rel])

theorem solo_thread_exec (t : Bool) :
    ∀ (r : List (Bool × Act)), projT t r = [] →
      ∃ b, mutOwners r = List.replicate b (!t)
  | [], _ => ⟨0, rfl⟩
  | (u, a) :: r2, h => by
    by_cases hu : u = t
    · rw [projT_cons, if_pos hu] at h
      cases h
    · have hu2 : u = !t := by cases u <;> cases t <;> simp_all
      rw [projT_cons, if_neg hu] at h
      obtain ⟨b, hb⟩ := solo_thread_exec t r2 h
      cases a with
      | touch tag =>
        refine ⟨b + 1, ?_⟩
        simp only [mutOwners, List.filterMap_cons] at hb ⊢
        rw [hb, hu2, List.replicate_succ]
      | acq =>
        refine ⟨b, ?_⟩
        simp only [mutOwners, List.filterMap_cons] at hb ⊢
        exact hb
      | rel =>
        refine ⟨b, ?_⟩
        simp only [mutOwners, List.filterMap_cons] at hb ⊢
        exact hb

/-- While thread `t` holds the lock and is mid-block, the other thread —
stuck at its opening acquire (or already finished) — contributes nothing
until `t` releases; so the mutation owners come out as `t`'s block
followed by the other thread's. -/
theorem crit_section_exec (t : Bool) :
    ∀ (e : List (Bool × Act)) (ms : List String),
      projT t e = ms.map Act.touch ++ [Act.rel] →
      (projT (!t) e = [] ∨ ∃ os, projT (!t) e = Act.acq :: os) →
      execValid (some t) e = true →
      ∃ b, mutOwners e = List.replicate ms.length t ++ List.replicate b (!t)
  | [], ms, hres, _, _ => by
    simp only [projT, List.filterMap_nil] at hres
    exact absurd hres.symm (by simp)
  | (u, a) :: r, ms, hres, hother, hvalid => by
    by_cases hu : u = t
    · subst hu
      rw [projT_cons, if_pos rfl] at hres
      have hother2 : projT (!u) r = [] ∨ ∃ os, projT (!u) r = Act.acq :: os := by
        rcases hother with h | ⟨os, h⟩
        · rw [projT_cons, if_neg (by cases u <;> simp)] at h
          exact Or.inl h
        · rw [projT_cons, if_neg (by cases u <;> simp)] at h
          exact Or.inr ⟨os, h⟩
      cases ms with
      | cons m ms2 =>
        simp only [List.map_cons, List.cons_append] at hres
        injection hres with ha hres2
        subst ha
        have hvalid2 : execValid (some u) r = true := by
          simpa [execValid] using hvalid
        obtain ⟨b, hb⟩ := crit_section_exec u r ms2 hres2 hother2 hvalid2
        refine ⟨b, ?_⟩
        simp only [mutOwners, List.filterMap_cons] at hb ⊢
        rw [hb]
        simp [List.replicate_succ]
      | nil =>
        simp only [List.map_nil, List.nil_append] at hres
        injection hres with ha hres2
        subst ha
        obtain ⟨b, hb⟩ := solo_thread_exec u r hres2
        refine ⟨b, ?_⟩
        simp only [mutOwners, List.filterMap_cons] at hb ⊢
        rw [hb]
        simp
    · -- the other thread cannot act: its next action is an acquire,
      -- which fails while the lock is held
      rcases hother with h | ⟨os, h⟩
      · rw [projT_cons, if_pos (by cases u <;> cases t <;> simp_all)] at h
        cases h
      · rw [projT_cons, if_pos (by cases u <;> cases t <;> simp_all)] at h
        injection h with ha hos
        subst ha
        simp [execValid] at hvalid

theorem dropWhile_replicate_append {α : Type} (p : α → Bool) (x : α) (hp : p x = true) :
    ∀ (a : Nat) (l : List α), List.dropWhile p (List.replicate a x ++ l) = List.dropWhile p l
  | 0, l => by simp
  | a + 1, l => by
    simp only [List.replicate_succ, List.cons_append, List.dropWhile_cons, hp, if_true]
    exact dropWhile_replicate_append p x hp a l

theorem all_replicate_of (p : Bool → Bool) (x : Bool) (hp : p x = true) :
    ∀ (b : Nat), (List.replicate b x).all p = true
  | 0 => rfl
  | b + 1 => by
    simp only [List.replicate_succ, List.all_cons, hp, Bool.true_and]
    exact all_replicate_of p x hp b

theorem unmixed_replicate (t : Bool) (a b : Nat) :
    unmixed (List.replicate a t ++ List.replicate b (!t)) = true := by
  cases t
  · refine Bool.or_eq_true_iff.mpr (Or.inl ?_)
    rw [dropWhile_replicate_append _ _ (by simp) a]
    cases b <;> simp [List.replicate_succ, List.dropWhile_cons, all_replicate_of]
  · refine Bool.or_eq_true_iff.mpr (Or.inr ?_)
    rw [dropWhile_replicate_append _ _ rfl a]
    cases b <;> simp [List.replicate_succ, List.dropWhile_cons, all_replicate_of]

/-- Any lock-valid interleaving of two acquire/body/release blocks keeps
their mutations contiguous: whichever thread acquires first completes its
whole body before any mutation of the other. -/
theorem lockBlocks_mutex (m0 m1 : List String) (e : List (Bool × Act))
    (hint : isInterleavingOf e (lockBlock m0) (lockBlock m1))
    (hvalid : execValid none e = true) :
    unmixed (mutOwners e) = true := by
  obtain ⟨h0, h1⟩ := hint
  cases e with
  | nil => simp [projT, lockBlock] at h0
  | cons p r =>
    obtain ⟨u, a⟩ := p
    have hproj : projT u ((u, a) :: r) = lockBlock (if u = false then m0 else m1) := by
      cases u
      · simpa using h0
      · simpa using h1
    rw [projT_cons, if_pos rfl] at hproj
    simp only [lockBlock] at hproj
    injection hproj with ha hres
    subst ha
    have hother : projT (!u) ((u, Act.acq) :: r)
        = lockBlock (if (!u) = false then m0 else m1) := by
      cases u
      · simpa using h1
      · simpa using h0
    rw [projT_cons, if_neg (by cases u <;> simp)] at hother
    have hvalid2 : execValid (some u) r = true := by
      simpa [execValid] using hvalid
    obtain ⟨b, hb⟩ := crit_section_exec u r _ hres
      (Or.inr ⟨_, by rw [hother]; rfl⟩) hvalid2
    have hmo : mutOwners ((u, Act.acq) :: r) = mutOwners r := by
      simp [mutOwners, List.filterMap_cons]
    rw [hmo, hb]
    exact unmixed_replicate u _ b

/-- A fully serialized execution of the two locked operations. -/
def serializedExec : List (Bool × Act) :=
  backupFileTrace.map (fun a => (false, a)) ++ backupFileToFinalTrace.map (fun a => (true, a))

/-- C4 as amended: `backupFile` and `backupFileToFinal` execute their
whole bodies holding the per-instance lock (and `preserveIntoFinal`'s
mutations run inside `backupFile`'s locked section, reached through the
prune), so any lock-valid execution of those two keeps their mutations
serialized; but `mergeFinalOnDemand` — and a bare `preserveIntoFinal`
call — acquire no lock at all. -/
theorem bm_lock_discipline_amended :
    lockGuarded backupFileTrace = true ∧
    lockGuarded backupFileToFinalTrace = true ∧
    (∀ a ∈ preserveFinalTrace, a ∈ backupFileTrace) ∧
    lockGuarded mergeFinalTrace = false ∧
    lockGuarded preserveFinalTrace = false ∧
    (∀ e, isInterleavingOf e backupFileTrace backupFileToFinalTrace →
      execValid none e = true → unmixed (mutOwners e) = true) := by
  refine ⟨rfl, rfl, by decide, rfl, rfl, ?_⟩
  intro e hint hvalid
  exact lockBlocks_mutex
    ["makedirsBackupRoot", "makedirsSnapDir", "copy2Snap", "makedirsFinalSub",
     "copy2Final", "saveFinalLog", "rmtreeSnapshot"]
    ["makedirsFinal", "copy2Final", "saveFinalLog"] e hint hvalid

/-- Concrete instantiation of the amended C4 at a serialized execution of
the two locked operations. -/
theorem bm_lock_discipline_amended_witness :
    Act.touch "copy2Final" ∈ backupFileTrace ∧
    unmixed (mutOwners serializedExec) = true :=
  ⟨bm_lock_discipline_amended.2.2.1 (Act.touch "copy2Final") (by decide),
   bm_lock_discipline_amended.2.2.2.2.2 serializedExec ⟨by decide, by decide⟩ (by decide)⟩

/-! ## C8: internal faults never escape

A fault-injection embedding: every fallible filesystem primitive
(`makedirs`, `copy2`, `listdir`, `getmtime`, `rmtree`, `os.walk`) consumes
one bit of an externally supplied oracle and raises when that bit is
false.  State mutations performed before a raise persist, as in Python.
The operations are re-rendered in this monad with the `try/except`
placement of the source; the claim is that each of them returns normally
under every oracle. -/

/-- A fault raised by a filesystem primitive. -/
inductive Fault where
  | ioError
  deriving DecidableEq, Repr

/-- Outcome of a computation under fault injection: the result or the
escaping fault, the state as mutated so far, and the remaining oracle. -/
structure EMRes (σ α : Type) where
  result : Except Fault α
  state : σ
  fuel : List Bool

/-- Computations over state `σ` with injected faults. -/
def EM (σ α : Type) : Type :=
  σ → List Bool → EMRes σ α

/-- Sequencing: a fault short-circuits, keeping the mutated state. -/
def bindEM {σ α β : Type} (m : EM σ α) (k : α → EM σ β) : EM σ β := fun st orc =>
  let r := m st orc
  match r.result with
  | Except.error e => ⟨Except.error e, r.state, r.fuel⟩
  | Except.ok a => k a r.state r.fuel

instance (σ : Type) : Monad (EM σ) where
  pure a := fun st orc => ⟨Except.ok a, st, orc⟩
  bind := bindEM

/-- A fallible mutating primitive: consumes one oracle bit; on success it
applies its state effect, on failure it raises having changed nothing. -/
def primOp {σ : Type} (f : σ → σ) : EM σ Unit := fun st orc =>
  match orc with
  | [] => ⟨Except.ok (), f st, []⟩
  | b :: rest =>
    if b then ⟨Except.ok (), f st, rest⟩ else ⟨Except.error Fault.ioError, st, rest⟩

/-- A fallible read-only primitive (`os.listdir`, `os.path.getmtime`). -/
def readOp {σ α : Type} (g : σ → α) : EM σ α := fun st orc =>
  match orc with
  | [] => ⟨Except.ok (g st), st, []⟩
  | b :: rest =>
    if b then ⟨Except.ok (g st), st, rest⟩ else ⟨Except.error Fault.ioError, st, rest⟩

/-- An infallible read (a call that swallows its own faults, such as
`_load_final_log`, `_get_latest_backup_dir`, `md5_for_file`,
`os.path.exists`, or plain dictionary access). -/
def pureRead {σ α : Type} (g : σ → α) : EM σ α := fun st orc =>
  ⟨Except.ok (g st), st, orc⟩

/-- An infallible state write (an in-memory assignment). -/
def pureWrite {σ : Type} (f : σ → σ) : EM σ Unit := fun st orc =>
  ⟨Except.ok (), f st, orc⟩

/-- `try: body except Exception: log` — every fault is swallowed and the
fallback value returned, keeping whatever state the body reached. -/
def tryLog {σ α : Type} (m : EM σ α) (fallback : α) : EM σ α := fun st orc =>
  let r := m st orc
  match r.result with
  | Except.ok a => ⟨Except.ok a, r.state, r.fuel⟩
  | Except.error _ => ⟨Except.ok fallback, r.state, r.fuel⟩

/-- Run a BackupManager computation from inside the watcher. -/
def liftBM {α : Type} (m : EM BMState α) : EM WCore α := fun c orc =>
  let r := m c.bm orc
  ⟨r.result, { c with bm := r.state }, r.fuel⟩

/-- `_save_final_log`: its body write may fail but its own `try/except`
swallows the fault. -/
def saveFinalLogE (data : List (String × LogEntry)) : EM BMState Unit :=
  tryLog (primOp (fun st => { st with finalLog := some data })) ()

/-- The per-file loop of `_preserve_files_in_final`: existence check
(infallible), `shutil.copy2` (fallible), `os.path.getmtime` (fallible),
digest (infallible), accumulating the in-memory log dictionary. -/
def preserveFilesE (name : String) :
    List (String × FileData) → List (String × LogEntry) →
      EM BMState (List (String × LogEntry))
  | [], log => pure log
  | e :: rest, log => do
    let ex ← pureRead (fun st => (lookupA (name ++ "/" ++ e.1) st.finalDir).isSome)
    if ex then preserveFilesE name rest log
    else do
      primOp (fun st => { st with finalDir := insertA (name ++ "/" ++ e.1) e.2 st.finalDir })
      let mt ← readOp (fun _ => e.2.mtime)
      let dg := md5_for_file (some e.2.content)
      preserveFilesE name rest (insertA (name ++ "/" ++ e.1) ⟨fmtTime mt, dg⟩ log)

/-- `_preserve_files_in_final`: makedirs, listdir, the copy loop and the
log save, all inside one `try/except`. -/
def preserveE (name : String) (now : Nat) : EM BMState Unit :=
  tryLog
    (do
      primOp (fun st => { st with finalMtime := now })
      let files ← readOp (fun st =>
        (st.snapshots.find? (fun s => s.name = name)).elim [] Snap.files)
      let log ← pureRead loadFinalLog
      let log2 ← preserveFilesE name files log
      saveFinalLogE log2)
    ()

/-- The `while` loop of `_prune_old_backups`: preserve (which swallows its
own faults), then `shutil.rmtree` (fallible). -/
def pruneLoopE (maxV : Nat) (now : Nat) : List String → EM BMState Unit
  | [] => pure ()
  | oldest :: rest =>
    if rest.length + 1 > maxV then do
      preserveE oldest now
      primOp (removeSnap oldest)
      pruneLoopE maxV now rest
    else pure ()

/-- `_prune_old_backups`: no-op without a limit; otherwise `os.listdir`
plus the loop inside one `try/except`. -/
def pruneE (now : Nat) : EM BMState Unit := fun st orc =>
  match st.maxVersions with
  | none => ⟨Except.ok (), st, orc⟩
  | some n =>
    (tryLog
      (do
        let ls ← readOp pruneListing
        pruneLoopE n now ls)
      ()) st orc

/-- `backup_file`: makedirs of the root, makedirs of the snapshot
directory plus `copy2`, then the prune, all inside one `try/except`. -/
def backup_fileE (ts : String) (now : Nat) (f : SrcFile) : EM BMState Unit :=
  tryLog
    (do
      primOp id
      primOp (fun st => { st with snapshots := copyIntoSnap ts now f st.snapshots })
      pruneE now)
    ()

/-- The body of `_check_and_backup_file` after the guarded `getmtime`:
dictionary reads, infallible digest and latest-dir lookups, and the
(internally caught) `backup_file` call. -/
def checkAndBackupRestE (cfg : WCfg) (ts : String) (now : Nat) (f : SrcFile)
    (mtime : Nat) : EM WCore Unit := do
  let last ← pureRead (fun c => lookupA f.relPath c.lastM)
  match last with
  | none =>
    if cfg.watchNewFiles then do
      liftBM (backup_fileE ts now f)
      pureWrite (fun c => { c with lastM := insertA f.relPath mtime c.lastM })
    else pure ()
  | some lm =>
    if mtime > lm then do
      let md5Current := md5_for_file (some f.content)
      let latest ← pureRead (fun c => getLatestBackupDir cfg c.bm)
      let md5Backup ← pureRead (fun c =>
        (latest.bind (fun d => fileInDir d f.name c.bm)).map
          (fun g => md5_for_file (some g.content)))
      if md5Backup ≠ some md5Current then do
        liftBM (backup_fileE ts now f)
        pureWrite (fun c => { c with lastM := insertA f.relPath mtime c.lastM })
      else pureWrite (fun c => { c with lastM := insertA f.relPath mtime c.lastM })
    else pure ()

/-- `_check_and_backup_file`: `os.path.getmtime` inside its own
`try/except OSError: return`, then the body. -/
def checkAndBackupFileE (cfg : WCfg) (ts : String) (now : Nat) (f : SrcFile) :
    EM WCore Unit := fun c orc =>
  let r := (readOp (fun _ => f.mtime) : EM WCore Nat) c orc
  match r.result with
  | Except.error _ => ⟨Except.ok (), r.state, r.fuel⟩
  | Except.ok m => checkAndBackupRestE cfg ts now f m r.state r.fuel

/-- The per-file walk of `_perform_periodic_scan`. -/
def scanFoldE (cfg : WCfg) (tsOf : Nat → String) (nowOf : Nat → Nat) :
    List SrcFile → Nat → EM WCore Unit
  | [], _ => pure ()
  | f :: rest, k =>
    if pmatches cfg f.name then do
      checkAndBackupFileE cfg (tsOf k) (nowOf k) f
      scanFoldE cfg tsOf nowOf rest (k + 1)
    else scanFoldE cfg tsOf nowOf rest k

/-- `_perform_periodic_scan`: `os.walk` plus the per-file checks inside
one `try/except`. -/
def scanE (cfg : WCfg) (tsOf : Nat → String) (nowOf : Nat → Nat)
    (files : List SrcFile) : EM WCore Unit :=
  tryLog
    (do
      let fs ← readOp (fun _ => files)
      scanFoldE cfg tsOf nowOf fs 0)
    ()

theorem tryLog_unit_ok {σ : Type} (m : EM σ Unit) (st : σ) (orc : List Bool) :
    ((tryLog m ()) st orc).result = Except.ok () := by
  unfold tryLog
  cases h : (m st orc).result with
  | ok a =>
    cases a
    simp [h]
  | error e => simp [h]

/-- C8: under every fault oracle and from every state, `backupFile`,
`prune`, `preserveIntoFinal` and the periodic scan catch every internal
fault and return normally — no fault propagates to the caller or could
terminate the watcher worker. -/
theorem internal_faults_never_escape :
    (∀ (ts : String) (now : Nat) (f : SrcFile) (st : BMState) (orc : List Bool),
      (backup_fileE ts now f st orc).result = Except.ok ()) ∧
    (∀ (now : Nat) (st : BMState) (orc : List Bool),
      (pruneE now st orc).result = Except.ok ()) ∧
    (∀ (name : String) (now : Nat) (st : BMState) (orc : List Bool),
      (preserveE name now st orc).result = Except.ok ()) ∧
    (∀ (cfg : WCfg) (tsOf : Nat → String) (nowOf : Nat → Nat) (files : List SrcFile)
        (c : WCore) (orc : List Bool),
      (scanE cfg tsOf nowOf files c orc).result = Except.ok ()) := by
  refine ⟨fun ts now f st orc => tryLog_unit_ok _ st orc,
          fun now st orc => ?_,
          fun name now st orc => tryLog_unit_ok _ st orc,
          fun cfg tsOf nowOf files c orc => tryLog_unit_ok _ c orc⟩
  unfold pruneE
  cases st.maxVersions with
  | none => rfl
  | some n => exact tryLog_unit_ok _ st orc

end WatchPupPy
